import Mathlib

/-!
Verification of the `space` 2-D geometry library (points, rectangles,
squares, segments, simple polygons, polygons with holes) and its quadtree
spatial index.  Every definition is a shallow embedding of the C++ sources:
coordinates are `Int` (the library is used with `int32_t`; no arithmetic here
approaches 2^31, so plain integers are a faithful model), fallible member
functions (`boundaryCurve()` on an empty polygon throws `std::out_of_range`)
become `Option`-returning functions, and the quadtree's uniquely-owned node
tree becomes an inductive tree with four optional children.
-/

/-- `space::Point<int32_t>`: an ordered pair of coordinates.  The defaulted
`operator<=>` compares the fields in declaration order `(m_x, m_y)`, i.e.
lexicographically. -/
structure Point where
  x : Int
  y : Int
deriving DecidableEq, Repr

/-- `space::Rect<int32_t>`: bottom-left corner `pos`, plus `width`/`height`.
The defaulted `operator<=>` carries the lexicographic order on
`(pos.x, pos.y, width, height)`. -/
structure Rect where
  pos : Point
  width : Int
  height : Int
deriving DecidableEq, Repr

/-- `space::Square<int32_t>`: bottom-left corner `pos` and edge `size`. -/
structure Square where
  pos : Point
  size : Int
deriving DecidableEq, Repr

/-- An axis-aligned box given by its bottom-left and top-right corners: the
view under which the `space::util` box predicates (one C++ template over any
"orthogonal shape") handle both `Rect` and `Square`. -/
structure Box where
  bl : Point
  tr : Point
deriving DecidableEq, Repr

/-- `space::util::bottomLeft` / `topRight` of a `Rect`:
`pos` and `(pos.x + width, pos.y + height)`. -/
def Rect.toBox (r : Rect) : Box :=
  ⟨r.pos, ⟨r.pos.x + r.width, r.pos.y + r.height⟩⟩

/-- `space::util::bottomLeft` / `topRightOf` of a `Square`:
`pos` and `(pos.x + size, pos.y + size)`. -/
def Square.toBox (s : Square) : Box :=
  ⟨s.pos, ⟨s.pos.x + s.size, s.pos.y + s.size⟩⟩

/-- `space::util::hesIntersect` on two orthogonal shapes (closed boxes):
`firstX2 >= secondX1 && secondX2 >= firstX1 && firstY2 >= secondY1 &&
secondY2 >= firstY1`. -/
def hesIntersect (a b : Box) : Bool :=
  a.tr.x ≥ b.bl.x ∧ b.tr.x ≥ a.bl.x ∧ a.tr.y ≥ b.bl.y ∧ b.tr.y ≥ a.bl.y

/-- `space::util::contains(rect, point)`:
`x1 <= px && px <= x2 && y1 <= py && py <= y2` (closed). -/
def containsPt (a : Box) (p : Point) : Bool :=
  a.bl.x ≤ p.x ∧ p.x ≤ a.tr.x ∧ a.bl.y ≤ p.y ∧ p.y ≤ a.tr.y

/-- `space::util::contains(shape1, shape2)`: the first shape contains the
second's `pos` (its bottom-left corner) and its top-right corner. -/
def containsBox (a b : Box) : Bool :=
  containsPt a b.bl ∧ containsPt a b.tr

/-- `Point::setX`: assigns the `m_x` field. -/
def setX (p : Point) (v : Int) : Point := { p with x := v }

/-- `Point::setY` from `include/Point.h`.  The body there is `m_x = newY;`:
it assigns the X field, although the doc comment (and the other revision of
the header, `src/unnamed/part_005`) say "sets the y-axis value".  The model
reproduces the shipped body. -/
def setY (p : Point) (v : Int) : Point := { p with x := v }

/-- `space::util::move(Point&, dx, dy)`:
`point.setX(point.x() + deltaX); point.setY(point.y() + deltaY);`. -/
def movePoint (p : Point) (dx dy : Int) : Point :=
  let p1 := setX p (p.x + dx)
  setY p1 (p1.y + dy)

/-- `space::util::move(TOrthogonalShape&, dx, dy)`: moves `rect.pos()`. -/
def moveRect (r : Rect) (dx dy : Int) : Rect :=
  { r with pos := movePoint r.pos dx dy }

/-- `space::util::move(SimplePolygon&, dx, dy)`: moves every vertex of
`poly.boundaryCurve()`; the call throws (`none`) when the polygon is empty,
since `boundaryCurve()` does. -/
def moveSimplePolygon (poly : List Point) (dx dy : Int) : Option (List Point) :=
  match poly with
  | [] => none
  | _ => some (poly.map (fun p => movePoint p dx dy))

/-- `space::Segment<int32_t>`: an ordered pair of points
(`std::pair` base class). -/
abbrev Segment := Point × Point

/-- `space::util::impl::EOrientation`. -/
inductive EOrientation where
  | collinear
  | clockwise
  | counterclockwise
deriving DecidableEq, Repr

/-- `space::util::impl::orientation(p, q, r)`: sign of
`(q.y - p.y)*(r.x - q.x) - (q.x - p.x)*(r.y - q.y)`. -/
def orientation (p q r : Point) : EOrientation :=
  let val := (q.y - p.y) * (r.x - q.x) - (q.x - p.x) * (r.y - q.y)
  if val = 0 then .collinear
  else if val > 0 then .clockwise
  else .counterclockwise

/-- `space::util::impl::onSegment(segment, point)`: the point lies in the
axis-aligned bounding rectangle of the segment. -/
def onSegment (s : Segment) (pt : Point) : Bool :=
  pt.x ≤ max s.1.x s.2.x ∧ pt.x ≥ min s.1.x s.2.x ∧
  pt.y ≤ max s.1.y s.2.y ∧ pt.y ≥ min s.1.y s.2.y

/-- `space::util::hasIntersect(Segment, Segment)`: the four-orientation
general case plus the four collinear special cases. -/
def hasIntersectSeg (first second : Segment) : Bool :=
  let p1 := first.1
  let q1 := first.2
  let p2 := second.1
  let q2 := second.2
  let o1 := orientation p1 q1 p2
  let o2 := orientation p1 q1 q2
  let o3 := orientation p2 q2 p1
  let o4 := orientation p2 q2 q1
  if o1 ≠ o2 ∧ o3 ≠ o4 then true
  else if o1 = .collinear ∧ onSegment first p2 then true
  else if o2 = .collinear ∧ onSegment first q2 then true
  else if o3 = .collinear ∧ onSegment second p1 then true
  else if o4 = .collinear ∧ onSegment second q1 then true
  else false

/-- `Point::operator<` (from the defaulted `operator<=>`): strict
lexicographic comparison of `(m_x, m_y)`. -/
def lexLt (a b : Point) : Bool :=
  a.x < b.x ∨ (a.x = b.x ∧ a.y < b.y)

/-- Lexicographic `≤` on points, spelled out as a proposition.  This is the
spec-side order used to state what `boundaryBoxOf`'s fold computes. -/
def LexLe (a b : Point) : Prop :=
  a.x < b.x ∨ (a.x = b.x ∧ a.y ≤ b.y)

/-- The minimum half of `std::ranges::minmax_element` over `p :: l` under
`Point::operator<` (value-wise; which of several equal minima is picked does
not matter because equivalent elements are equal points). -/
def lexMinOf (p : Point) (l : List Point) : Point :=
  l.foldl (fun m q => if lexLt q m then q else m) p

/-- The maximum half of `std::ranges::minmax_element` over `p :: l`. -/
def lexMaxOf (p : Point) (l : List Point) : Point :=
  l.foldl (fun m q => if lexLt m q then q else m) p

/-- The two-corner `Rect` constructor (`Rect(leftBottom, rightTop)`):
`width = rightTop.x - leftBottom.x`, `height = rightTop.y - leftBottom.y`. -/
def rectOfCorners (lb rt : Point) : Rect :=
  ⟨lb, rt.x - lb.x, rt.y - lb.y⟩

/-- `space::util::boundaryBoxOf(SimplePolygon)`: `minmax_element` over the
boundary curve, then the two-corner `Rect` constructor.  `boundaryCurve()`
throws `std::out_of_range` on an empty polygon, modelled as `none`. -/
def boundaryBoxOf : List Point → Option Rect
  | [] => none
  | p :: ps => some (rectOfCorners (lexMinOf p ps) (lexMaxOf p ps))

/-- `space::util::impl::infinityXAxisFor(poly)`:
`topRightOf(boundaryBoxOf(poly)).x() + 1`. -/
def infinityXAxisFor (poly : List Point) : Option Int :=
  (boundaryBoxOf poly).map (fun bb => bb.toBox.tr.x + 1)

/-- Vertex access `boundary[i]`; the algorithm only indexes with
`i % numOfVertex` shapes, so the modulus is part of the access. -/
def vtx (b : List Point) (i : Nat) : Point :=
  b.getD (i % b.length) ⟨0, 0⟩

/-- The `do { ... } while (i != 0)` loop of
`space::util::contains(SimplePolygon, Point)`: one call per edge
`(boundary[i], boundary[(i+1) % n])`, `steps` counting the remaining
iterations (the loop runs exactly `n` times).  Early returns: a collinear
edge answers `onSegment(edge, point)` outright; otherwise the crossing
counter is incremented, twice when the ray passes through the edge's second
vertex and the two orientation tests agree. -/
def containsSPGo (b : List Point) (pt : Point) (ray : Segment) (n : Nat) :
    Nat → Nat → Nat → Bool
  | 0, _, count => count % 2 = 1
  | steps+1, i, count =>
      let next := (i + 1) % n
      let edge : Segment := (vtx b i, vtx b next)
      if hasIntersectSeg edge ray then
        if orientation edge.1 pt edge.2 = .collinear then
          onSegment edge pt
        else
          let count1 := if onSegment ray edge.2 ∧
              orientation pt edge.2 edge.1 =
                orientation (vtx b ((i + 2) % n)) edge.2 pt
            then count + 1 else count
          containsSPGo b pt ray n steps next (count1 + 1)
      else containsSPGo b pt ray n steps next count

/-- `space::util::contains(SimplePolygon, Point)` (ray casting, even-odd
rule).  The pseudo-infinite abscissa is computed from the bounding box
before the vertex-count test, so an empty polygon makes the call throw
(`none`); with fewer than 3 vertices it returns `false`. -/
def containsSP (poly : List Point) (pt : Point) : Option Bool :=
  match infinityXAxisFor poly with
  | none => none
  | some inf =>
    let ray : Segment := (pt, ⟨inf, pt.y⟩)
    let n := poly.length
    if n < 3 then some false
    else some (containsSPGo poly pt ray n n 0 0)

/-- The `std::ranges::none_of` loop of
`space::util::contains(Polygon, Point)` over the holes: stops at the first
hole containing the point; an exception from `contains` on an empty hole
escapes (`none`). -/
def noneOfHoles : List (List Point) → Point → Option Bool
  | [], _ => some true
  | h :: hs, pt =>
    match containsSP h pt with
    | none => none
    | some true => some false
    | some false => noneOfHoles hs pt

/-- `space::util::contains(Polygon, Point)`.  A `Polygon` is its contour
list `m_arrContours` (index 0 = outer boundary, rest = holes; the
default-constructed polygon has no contours).  Returns `false` when the
polygon is empty or the outer boundary does not contain the point, else
`none_of` over the holes. -/
def containsPolygon (contours : List (List Point)) (pt : Point) : Option Bool :=
  match contours with
  | [] => some false
  | outer :: holes =>
    match containsSP outer pt with
    | none => none
    | some false => some false
    | some true => noneOfHoles holes pt

/-! ### Order lemmas for the lexicographic fold -/

theorem lexLt_iff (a b : Point) :
    lexLt a b = true ↔ (a.x < b.x ∨ (a.x = b.x ∧ a.y < b.y)) := by
  simp [lexLt]

theorem lexle_refl (a : Point) : LexLe a a :=
  Or.inr ⟨Eq.refl _, le_refl _⟩

theorem LexLe.trans {a b c : Point} (h1 : LexLe a b) (h2 : LexLe b c) :
    LexLe a c := by
  rcases h1 with h1 | ⟨h1, h1'⟩ <;> rcases h2 with h2 | ⟨h2, h2'⟩ <;>
    simp only [LexLe] <;> omega

theorem lexLt_le {a b : Point} (h : lexLt a b = true) : LexLe a b := by
  rw [lexLt_iff] at h
  rcases h with h | ⟨h, h'⟩ <;> simp only [LexLe] <;> omega

theorem not_lexLt_le {a b : Point} (h : ¬ lexLt a b = true) : LexLe b a := by
  rw [lexLt_iff] at h
  simp only [LexLe]
  omega

theorem lexMinOf_spec (l : List Point) : ∀ p : Point,
    lexMinOf p l ∈ p :: l ∧ ∀ q ∈ p :: l, LexLe (lexMinOf p l) q := by
  induction l with
  | nil =>
    intro p
    refine ⟨List.mem_singleton.mpr rfl, ?_⟩
    intro q hq
    rw [List.mem_singleton] at hq
    subst hq
    exact lexle_refl _
  | cons r l ih =>
    intro p
    have hfold : lexMinOf p (r :: l) = lexMinOf (if lexLt r p then r else p) l := by
      simp [lexMinOf, List.foldl_cons]
    have hboth : LexLe (if lexLt r p then r else p) p ∧
        LexLe (if lexLt r p then r else p) r := by
      by_cases h : lexLt r p = true
      · simp only [h, if_true]
        exact ⟨lexLt_le h, lexle_refl r⟩
      · simp only [h, if_false]
        exact ⟨lexle_refl p, not_lexLt_le h⟩
    constructor
    · rw [hfold]
      rcases List.mem_cons.mp (ih (if lexLt r p then r else p)).1 with hm | hm
      · rw [hm]
        by_cases h : lexLt r p = true <;> simp [h]
      · exact List.mem_cons_of_mem _ (List.mem_cons_of_mem _ hm)
    · intro q hq
      rw [hfold]
      have hle := (ih (if lexLt r p then r else p)).2
      have hhead := hle (if lexLt r p then r else p) (List.mem_cons_self _ _)
      rcases List.mem_cons.mp hq with hq | hq
      · subst hq
        exact hhead.trans hboth.1
      rcases List.mem_cons.mp hq with hq | hq
      · subst hq
        exact hhead.trans hboth.2
      · exact hle q (List.mem_cons_of_mem _ hq)

theorem lexMaxOf_spec (l : List Point) : ∀ p : Point,
    lexMaxOf p l ∈ p :: l ∧ ∀ q ∈ p :: l, LexLe q (lexMaxOf p l) := by
  induction l with
  | nil =>
    intro p
    refine ⟨List.mem_singleton.mpr rfl, ?_⟩
    intro q hq
    rw [List.mem_singleton] at hq
    subst hq
    exact lexle_refl _
  | cons r l ih =>
    intro p
    have hfold : lexMaxOf p (r :: l) = lexMaxOf (if lexLt p r then r else p) l := by
      simp [lexMaxOf, List.foldl_cons]
    have hboth : LexLe p (if lexLt p r then r else p) ∧
        LexLe r (if lexLt p r then r else p) := by
      by_cases h : lexLt p r = true
      · simp only [h, if_true]
        exact ⟨lexLt_le h, lexle_refl r⟩
      · simp only [h, if_false]
        exact ⟨lexle_refl p, not_lexLt_le h⟩
    constructor
    · rw [hfold]
      rcases List.mem_cons.mp (ih (if lexLt p r then r else p)).1 with hm | hm
      · rw [hm]
        by_cases h : lexLt p r = true <;> simp [h]
      · exact List.mem_cons_of_mem _ (List.mem_cons_of_mem _ hm)
    · intro q hq
      rw [hfold]
      have hle := (ih (if lexLt p r then r else p)).2
      have hhead := hle (if lexLt p r then r else p) (List.mem_cons_self _ _)
      rcases List.mem_cons.mp hq with hq | hq
      · subst hq
        exact hboth.1.trans hhead
      rcases List.mem_cons.mp hq with hq | hq
      · subst hq
        exact hboth.2.trans hhead
      · exact hle q (List.mem_cons_of_mem _ hq)

/-! ### Simple-polygon and polygon lemmas -/

theorem containsSP_cons (p : Point) (ps : List Point) (pt : Point) :
    containsSP (p :: ps) pt =
      (if (p :: ps).length < 3 then some false
       else some (containsSPGo (p :: ps) pt
         (pt, ⟨(rectOfCorners (lexMinOf p ps) (lexMaxOf p ps)).toBox.tr.x + 1, pt.y⟩)
         (p :: ps).length (p :: ps).length 0 0)) := rfl

theorem containsSP_isSome (b : List Point) (pt : Point) (hb : b ≠ []) :
    ∃ bo, containsSP b pt = some bo := by
  cases b with
  | nil => exact absurd rfl hb
  | cons p ps =>
    rw [containsSP_cons]
    split
    · exact ⟨_, rfl⟩
    · exact ⟨_, rfl⟩

theorem noneOfHoles_iff (holes : List (List Point)) (pt : Point)
    (hh : ∀ h ∈ holes, h ≠ []) :
    (noneOfHoles holes pt = some true ↔
      ∀ h ∈ holes, containsSP h pt ≠ some true) := by
  induction holes with
  | nil => simp [noneOfHoles]
  | cons h hs ih =>
    obtain ⟨bo, hbo⟩ := containsSP_isSome h pt (hh h (List.mem_cons_self _ _))
    cases bo
    · have hstep : noneOfHoles (h :: hs) pt = noneOfHoles hs pt := by
        simp [noneOfHoles, hbo]
      rw [hstep, ih (fun g hg => hh g (List.mem_cons_of_mem _ hg))]
      simp [hbo]
    · have hstep : noneOfHoles (h :: hs) pt = some false := by
        simp [noneOfHoles, hbo]
      rw [hstep]
      constructor
      · intro hfalse
        simp at hfalse
      · intro hall
        exact absurd hbo (hall h (List.mem_cons_self _ _))

/-! ### Claims about the predicate kernel and polygon algorithms -/

/-- Claim C5, counterexample.  The claim says `contains` returns `false` for
every polygon with fewer than 3 vertices, including the empty one, and that
the call never fails.  On the empty polygon the code computes
`infinityXAxisFor` — which calls `boundaryCurve()` — before the vertex-count
test, and `boundaryCurve()` throws `std::out_of_range`; the call fails
instead of returning `false`. -/
theorem containsSP_empty_fails : containsSP [] ⟨0, 0⟩ = none := rfl

/-- Claim C5, amended: for every NONEMPTY simple polygon with fewer than 3
vertices and every point, `contains` returns `false` without failing; the
empty polygon makes the call fail with the `Empty` error because the
bounding box of the boundary curve is computed before the size check. -/
theorem containsSP_small_false (b : List Point) (pt : Point)
    (h1 : b ≠ []) (h2 : b.length < 3) : containsSP b pt = some false := by
  cases b with
  | nil => exact absurd rfl h1
  | cons p ps => rw [containsSP_cons, if_pos h2]

/-- Witness for `containsSP_small_false` at the one-vertex polygon. -/
theorem containsSP_small_false_witness :
    ([⟨1, 1⟩] : List Point) ≠ [] ∧ ([⟨1, 1⟩] : List Point).length < 3 ∧
      containsSP [⟨1, 1⟩] ⟨0, 0⟩ = some false :=
  ⟨by decide, by decide, containsSP_small_false [⟨1, 1⟩] ⟨0, 0⟩ (by decide) (by decide)⟩

/-- The polygon of claim C6 (test seed scenario 4). -/
def pentagonC6 : List Point := [⟨1, 1⟩, ⟨2, 5⟩, ⟨7, 6⟩, ⟨10, 4⟩, ⟨9, 2⟩]

/-- Claim C6: on the polygon `[(1,1),(2,5),(7,6),(10,4),(9,2)]`, `contains`
answers `true` at `(5,4)`, `false` at `(0,4)`, `false` at `(11,4)`, and
`true` at the vertex `(9,2)`. -/
theorem containsSP_pentagon_values :
    containsSP pentagonC6 ⟨5, 4⟩ = some true ∧
    containsSP pentagonC6 ⟨0, 4⟩ = some false ∧
    containsSP pentagonC6 ⟨11, 4⟩ = some false ∧
    containsSP pentagonC6 ⟨9, 2⟩ = some true := by decide

/-- The outer square used in the claim C7 counterexample. -/
def sqOuterC7 : List Point := [⟨0, 0⟩, ⟨0, 10⟩, ⟨10, 10⟩, ⟨10, 0⟩]

/-- Claim C7, counterexample.  The claim states
`contains(P, q) = true ⟺ outer contains q ∧ no hole contains q` for EVERY
polygon-with-holes.  Take the polygon whose outer boundary is a square
containing `(1,1)` and whose single hole is the empty vertex list: the
right-hand side holds (the empty hole contains nothing), but the call does
not return `true` — it fails, because `contains` on the empty hole throws
from `boundaryCurve()`. -/
theorem containsPolygon_empty_hole_fails :
    ¬(containsPolygon [sqOuterC7, []] ⟨1, 1⟩ = some true ↔
      (containsSP sqOuterC7 ⟨1, 1⟩ = some true ∧
       ∀ h ∈ [([] : List Point)], containsSP h ⟨1, 1⟩ ≠ some true)) := by decide

/-- Claim C7, amended: when every hole is a nonempty vertex list,
`contains(P, q)` returns `true` iff the outer boundary contains `q` and no
hole contains `q`; the empty polygon (no contours) returns `false`.  (A
contour with an empty vertex list reached by the evaluation makes the call
fail with `Empty` instead.) -/
theorem containsPolygon_outer_and_holes (outer : List Point)
    (holes : List (List Point)) (pt : Point) (hh : ∀ h ∈ holes, h ≠ []) :
    (containsPolygon (outer :: holes) pt = some true ↔
      (containsSP outer pt = some true ∧
       ∀ h ∈ holes, containsSP h pt ≠ some true)) ∧
    containsPolygon [] pt = some false := by
  refine ⟨?_, rfl⟩
  have hunfold : containsPolygon (outer :: holes) pt =
      (match containsSP outer pt with
       | none => none
       | some false => some false
       | some true => noneOfHoles holes pt) := rfl
  rw [hunfold]
  cases hcs : containsSP outer pt with
  | none => simp
  | some bv =>
    cases bv
    · simp
    · simpa using noneOfHoles_iff holes pt hh

/-- Witness for `containsPolygon_outer_and_holes`: the seed polygon-with-
holes scenario, outer contour with two nonempty holes. -/
theorem containsPolygon_outer_and_holes_witness :
    (∀ h ∈ [[⟨4, 3⟩, ⟨5, 5⟩, ⟨7, 4⟩, ⟨6, 2⟩], [⟨9, 2⟩, ⟨9, 3⟩, ⟨11, 5⟩, ⟨11, 4⟩]],
        h ≠ ([] : List Point)) ∧
    ((containsPolygon [[⟨2, 1⟩, ⟨3, 5⟩, ⟨5, 6⟩, ⟨10, 6⟩, ⟨12, 5⟩, ⟨12, 3⟩, ⟨10, 1⟩],
        [⟨4, 3⟩, ⟨5, 5⟩, ⟨7, 4⟩, ⟨6, 2⟩], [⟨9, 2⟩, ⟨9, 3⟩, ⟨11, 5⟩, ⟨11, 4⟩]] ⟨3, 2⟩ = some true ↔
      (containsSP [⟨2, 1⟩, ⟨3, 5⟩, ⟨5, 6⟩, ⟨10, 6⟩, ⟨12, 5⟩, ⟨12, 3⟩, ⟨10, 1⟩] ⟨3, 2⟩ = some true ∧
       ∀ h ∈ [[⟨4, 3⟩, ⟨5, 5⟩, ⟨7, 4⟩, ⟨6, 2⟩], [⟨9, 2⟩, ⟨9, 3⟩, ⟨11, 5⟩, ⟨11, 4⟩]],
         containsSP h ⟨3, 2⟩ ≠ some true)) ∧
     containsPolygon [] ⟨3, 2⟩ = some false) :=
  ⟨by decide,
   containsPolygon_outer_and_holes
     [⟨2, 1⟩, ⟨3, 5⟩, ⟨5, 6⟩, ⟨10, 6⟩, ⟨12, 5⟩, ⟨12, 3⟩, ⟨10, 1⟩]
     [[⟨4, 3⟩, ⟨5, 5⟩, ⟨7, 4⟩, ⟨6, 2⟩], [⟨9, 2⟩, ⟨9, 3⟩, ⟨11, 5⟩, ⟨11, 4⟩]]
     ⟨3, 2⟩ (by decide)⟩

/-- Claim C8: `boundaryBoxOf` of a nonempty simple polygon is the rectangle
spanning the lexicographic minimum vertex to the lexicographic maximum
vertex of the vertex sequence (via the two-corner constructor). -/
theorem boundaryBoxOf_lex_minmax (b : List Point) (hb : b ≠ []) :
    ∃ mn mx, mn ∈ b ∧ mx ∈ b ∧ (∀ p ∈ b, LexLe mn p ∧ LexLe p mx) ∧
      boundaryBoxOf b = some (rectOfCorners mn mx) := by
  cases b with
  | nil => exact absurd rfl hb
  | cons p ps =>
    refine ⟨lexMinOf p ps, lexMaxOf p ps, (lexMinOf_spec ps p).1,
      (lexMaxOf_spec ps p).1, ?_, rfl⟩
    intro q hq
    exact ⟨(lexMinOf_spec ps p).2 q hq, (lexMaxOf_spec ps p).2 q hq⟩

/-- Witness for `boundaryBoxOf_lex_minmax` at a two-vertex polygon. -/
theorem boundaryBoxOf_lex_minmax_witness :
    ([⟨1, 1⟩, ⟨0, 2⟩] : List Point) ≠ [] ∧
    ∃ mn mx, mn ∈ ([⟨1, 1⟩, ⟨0, 2⟩] : List Point) ∧
      mx ∈ ([⟨1, 1⟩, ⟨0, 2⟩] : List Point) ∧
      (∀ p ∈ ([⟨1, 1⟩, ⟨0, 2⟩] : List Point), LexLe mn p ∧ LexLe p mx) ∧
      boundaryBoxOf [⟨1, 1⟩, ⟨0, 2⟩] = some (rectOfCorners mn mx) :=
  ⟨by decide, boundaryBoxOf_lex_minmax [⟨1, 1⟩, ⟨0, 2⟩] (by decide)⟩

/-- Claim C9: evaluation of the translate round trip at a failing input.
`include/Point.h`'s `setY` assigns the X field (`m_x = newY;`), so
`move(move(shape, dx, dy), -dx, -dy)` does not restore the original shape:
for the point `(0,0)` and `(dx, dy) = (0, 1)` the round trip yields
`(-1, 0)`, and for a rectangle at `(0,0)` the position is corrupted
likewise. -/
theorem move_roundTrip_fails_eval :
    movePoint (movePoint ⟨0, 0⟩ 0 1) 0 (-1) = ⟨-1, 0⟩ ∧
    (⟨-1, 0⟩ : Point) ≠ ⟨0, 0⟩ ∧
    moveRect (moveRect ⟨⟨0, 0⟩, 2, 3⟩ 0 1) 0 (-1) = ⟨⟨-1, 0⟩, 2, 3⟩ ∧
    moveSimplePolygon [⟨0, 0⟩] 0 1 = some [⟨1, 0⟩] := by decide

/-- The polygon for claim C10. -/
def polyC10 : List Point := [⟨0, 10⟩, ⟨5, 0⟩, ⟨3, 1⟩]

/-- Claim C10: a nonempty simple polygon whose `boundaryBoxOf` result does
not contain every vertex, with negative height: the lexicographic extremes
`(0,10)` and `(5,0)` are not the per-axis extremes, so the "bounding" box
spans downward and misses the vertex `(0,10)` itself. -/
theorem boundaryBoxOf_not_bounding :
    boundaryBoxOf polyC10 = some ⟨⟨0, 10⟩, 5, -10⟩ ∧
    (Rect.mk ⟨0, 10⟩ 5 (-10)).height < 0 ∧
    (⟨0, 10⟩ : Point) ∈ polyC10 ∧
    containsPt (Rect.mk ⟨0, 10⟩ 5 (-10)).toBox ⟨0, 10⟩ = false := by decide

/-! ### The quadtree (`space::QuadTree<space::Rect<int32_t>>`)

The node owns a `Square` region, four uniquely-owned child slots indexed by
`ZOrderPos`, and a `boost::container::flat_set` of keys, modelled as a
sorted duplicate-free list.  The tree root is an optional node. -/

/-- `QuadTree::ZOrderPos` (enum values `LeftTop = 0`, `LeftBottom = 1`,
`RightTop = 2`, `RightBottom = 3`). -/
inductive ZOrderPos where
  | LeftTop
  | LeftBottom
  | RightTop
  | RightBottom
deriving DecidableEq, Repr

/-- `QuadTree::Node`: region, the four child slots in `ZOrderPos` order, and
the value set. -/
inductive QNode : Type where
  | mk (region : Square) (lt lb rt rb : Option QNode) (values : List Rect) : QNode
deriving Repr

def QNode.region : QNode → Square
  | .mk r _ _ _ _ _ => r

def QNode.values : QNode → List Rect
  | .mk _ _ _ _ _ v => v

/-- `Node::getChild(pos)`. -/
def getChild : QNode → ZOrderPos → Option QNode
  | .mk _ lt _ _ _ _, .LeftTop => lt
  | .mk _ _ lb _ _ _, .LeftBottom => lb
  | .mk _ _ _ rt _ _, .RightTop => rt
  | .mk _ _ _ _ rb _, .RightBottom => rb

/-- `Node::setChild(pos, child)` (also used for `reset` with `none`). -/
def setChild : QNode → ZOrderPos → Option QNode → QNode
  | .mk reg _ lb rt rb v, .LeftTop, c => .mk reg c lb rt rb v
  | .mk reg lt _ rt rb v, .LeftBottom, c => .mk reg lt c rt rb v
  | .mk reg lt lb _ rb v, .RightTop, c => .mk reg lt lb c rb v
  | .mk reg lt lb rt _ v, .RightBottom, c => .mk reg lt lb rt c v

/-- `Node::empty()`: no values and all four child slots absent. -/
def emptyNode : QNode → Bool
  | .mk _ lt lb rt rb vals =>
    vals.isEmpty && lt.isNone && lb.isNone && rt.isNone && rb.isNone

/-- `QuadTree::getRectMiddleX`: `pos.x + size / 2` (C++ integer division;
region sizes are nonnegative so truncated division it is). -/
def getRectMiddleX (r : Square) : Int := r.pos.x + Int.tdiv r.size 2

/-- `QuadTree::getRectMiddleY`. -/
def getRectMiddleY (r : Square) : Int := r.pos.y + Int.tdiv r.size 2

/-- `QuadTree::hasIntersectionWithRegionSplitLines(rect, region)`: the key's
extent crosses the vertical or horizontal split line of the region. -/
def hasIntersectionWithRegionSplitLines (rect : Rect) (region : Square) : Bool :=
  let mX := getRectMiddleX region
  let mY := getRectMiddleY region
  ((rect.pos.x ≤ mX ∧ mX ≤ rect.pos.x + rect.width) ∨
   (rect.pos.y ≤ mY ∧ mY ≤ rect.pos.y + rect.height))

/-- `QuadTree::getZOrderPos(region, key)`: quadrant of `key.pos` relative to
the split-line crossing. -/
def getZOrderPos (region : Square) (key : Rect) : ZOrderPos :=
  let mX := getRectMiddleX region
  let mY := getRectMiddleY region
  if key.pos.x < mX then
    if key.pos.y > mY then .LeftTop else .LeftBottom
  else
    if key.pos.y > mY then .RightTop else .RightBottom

/-- `std::round(size / 2.0)` on an integer size (half away from zero), used
by `makeChildRegion`; the reachable sizes are even, where this is exact
halving. -/
def roundHalf (s : Int) : Int :=
  if s % 2 = 0 then Int.tdiv s 2
  else if 0 < s then Int.tdiv s 2 + 1
  else Int.tdiv s 2 - 1

/-- `QuadTree::makeChildRegion(region, zOrderPos)`: the four quadrants. -/
def makeChildRegion (region : Square) (z : ZOrderPos) : Square :=
  let mX := getRectMiddleX region
  let mY := getRectMiddleY region
  let sz := roundHalf region.size
  match z with
  | .LeftTop => ⟨⟨region.pos.x, mY⟩, sz⟩
  | .LeftBottom => ⟨region.pos, sz⟩
  | .RightTop => ⟨⟨mX, mY⟩, sz⟩
  | .RightBottom => ⟨⟨mX, region.pos.y⟩, sz⟩

/-- `Rect::operator<` (defaulted `operator<=>`): lexicographic on
`(pos.x, pos.y, width, height)`; the `flat_set` key order. -/
def rectLt (a b : Rect) : Bool :=
  a.pos.x < b.pos.x ∨ (a.pos.x = b.pos.x ∧
    (a.pos.y < b.pos.y ∨ (a.pos.y = b.pos.y ∧
      (a.width < b.width ∨ (a.width = b.width ∧ a.height < b.height)))))

/-- Sorted-position insertion into the `flat_set`'s backing sequence. -/
def sortedInsert (k : Rect) : List Rect → List Rect
  | [] => [k]
  | v :: vs => if rectLt k v then k :: v :: vs else v :: sortedInsert k vs

/-- `flat_set::insert(key)`: no change when the key is already present,
otherwise insert at the sorted position; the flag is `true` iff the key was
newly inserted (the `bool` of the returned pair). -/
def setInsert (k : Rect) (l : List Rect) : List Rect × Bool :=
  if k ∈ l then (l, false) else (sortedInsert k l, true)

/-- `Node::addValue(box)`, with the `flat_set::insert` freshness flag. -/
def addValue : QNode → Rect → QNode × Bool
  | .mk reg lt lb rt rb vals, k =>
    let p := setInsert k vals
    (.mk reg lt lb rt rb p.1, p.2)

/-- `⌊log2 n⌋` computed by repeated halving, with explicit fuel so the
kernel can evaluate it (`log2floor n n` is exact for every `n ≥ 1`). -/
def log2floor : Nat → Nat → Nat
  | 0, _ => 0
  | f+1, n => if n < 2 then 0 else log2floor f (n / 2) + 1

/-- `QuadTree::creatRoot(key)`: the root covers `([0,0], s)` with
`s = 2^(int(log2(max(topRight(key)))) + 1)`.  In C++ the case
`max ≤ 0` routes through `log2(0) = -∞` and the `pow`/cast collapse to `0`,
which the explicit `0 == regionSize` check then replaces by `1`; for
`max ≥ 1` the double-precision chain computes exactly
`2^(⌊log2 max⌋ + 1)`. -/
def creatRoot (k : Rect) : QNode :=
  let tr := k.toBox.tr
  let m : Int := max tr.x tr.y
  let regionSize : Int := if m ≤ 0 then 1 else 2 ^ (log2floor m.toNat m.toNat + 1)
  .mk ⟨⟨0, 0⟩, regionSize⟩ none none none none []

/-- One `growUpIfNeeds` iteration per fuel unit: while the root's region
does not contain the key, replace the root by a node of doubled size
(`size << 1`) anchored at `(0,0)` whose `LeftBottom` child is the previous
root.  The fuel only truncates runs that the C++ `while` loop would not
finish either (it diverges for keys outside the positive quadrant); a
sufficient fuel bound is proved for in-contract keys below. -/
def growUpGo (k : Rect) : Nat → QNode → QNode
  | 0, root => root
  | fuel+1, root =>
    if containsBox root.region.toBox k.toBox then root
    else growUpGo k fuel (.mk ⟨⟨0, 0⟩, root.region.size * 2⟩ none (some root) none none [])

/-- `max(topRight(k).x, topRight(k).y)`, the coordinate magnitude driving
both root creation and the grow-up fuel bound. -/
def maxExtent (k : Rect) : Int := max (k.pos.x + k.width) (k.pos.y + k.height)

/-- `QuadTree::growUpIfNeeds(key)`, with fuel sufficient for every region
of positive size (proved below: doubling a positive size `maxExtent k + 2`
times always passes `maxExtent k`). -/
def growUpIfNeeds (root : QNode) (k : Rect) : QNode :=
  growUpGo k ((maxExtent k).toNat + 2) root

/-- `QuadTree::growDownIfNeedsAndReturnLastNode` fused with the final
`node->addValue(key)` of `insert`: descend while the key does not straddle
the split lines and the region size is not 1, materializing missing
children, then add the key to the stop node's value set.  The Boolean is
the `flat_set::insert` freshness flag (the return value of the
`bool insert` interface variant).  Fuel decreases once per descent step; a
region of size `2^j` needs only `j` steps (proved below), and
`insert` passes `size.toNat + 1 > j` of it. -/
def growDownGo (k : Rect) : Nat → QNode → QNode × Bool
  | 0, n => addValue n k
  | fuel+1, n =>
    if hasIntersectionWithRegionSplitLines k n.region ∨ n.region.size = 1 then
      addValue n k
    else
      let z := getZOrderPos n.region k
      let c := (getChild n z).getD (.mk (makeChildRegion n.region z) none none none none [])
      let p := growDownGo k fuel c
      (setChild n z (some p.1), p.2)

/-- `QuadTree::insert(key)` on the optional root, returning the updated
tree and the `bool` of the bool-returning interface variant: create the
root if absent, grow up, grow down, insert into the stop node's value set. -/
def insertRet (t : Option QNode) (k : Rect) : Option QNode × Bool :=
  let root0 := t.getD (creatRoot k)
  let root1 := growUpIfNeeds root0 k
  let p := growDownGo k (root1.region.size.toNat + 1) root1
  (some p.1, p.2)

/-- `QuadTree::insert(key)` (the `void` interface of `include/QuadTree.h`):
just the tree update. -/
def insertT (t : Option QNode) (k : Rect) : Option QNode :=
  (insertRet t k).1

/-- `QuadTree::query(key, outIt)`: skip a node (and its subtree) unless the
query intersects its region; emit the intersecting values, then the present
children.  The C++ drives an explicit LIFO stack pushed in `ZOrderPos`
order, so subtrees are visited `RightBottom` first; the recursion mirrors
that emission order. -/
def queryNode (q : Rect) : QNode → List Rect
  | .mk reg lt lb rt rb vals =>
    if hesIntersect q.toBox reg.toBox then
      vals.filter (fun v => hesIntersect q.toBox v.toBox)
        ++ (match rb with | none => [] | some c => queryNode q c)
        ++ (match rt with | none => [] | some c => queryNode q c)
        ++ (match lb with | none => [] | some c => queryNode q c)
        ++ (match lt with | none => [] | some c => queryNode q c)
    else []

/-- `query` from the optional root. -/
def queryT (t : Option QNode) (q : Rect) : List Rect :=
  match t with
  | none => []
  | some n => queryNode q n

/-- All keys stored in a subtree (values of the node and of all
descendants), in child-slot order. -/
def subtreeKeys : QNode → List Rect
  | .mk _ lt lb rt rb vals =>
      vals ++ (match lt with | none => [] | some c => subtreeKeys c)
           ++ (match lb with | none => [] | some c => subtreeKeys c)
           ++ (match rt with | none => [] | some c => subtreeKeys c)
           ++ (match rb with | none => [] | some c => subtreeKeys c)

/-- All keys stored in the tree. -/
def allKeysT : Option QNode → List Rect
  | none => []
  | some n => subtreeKeys n

/-- `Node::eraseValue(box)`: `flat_set::erase(key)` removes the key from
the value set. -/
def eraseValue : QNode → Rect → QNode
  | .mk reg lt lb rt rb vals, k => .mk reg lt lb rt rb (vals.filter (fun v => v ≠ k))

/-- A present child is a structurally smaller tree. -/
theorem sizeOf_getChild {n : QNode} {z : ZOrderPos} {c : QNode}
    (h : getChild n z = some c) : sizeOf c < sizeOf n := by
  obtain ⟨reg, lt, lb, rt, rb, vals⟩ := n
  cases z <;> simp only [getChild] at h <;> subst h <;> simp <;> omega

/-- `QuadTree::remove(key)` on a node: `findNode` descends while the key
does not straddle the split lines (no grow-down and no unit-size stop — the
loop in `findNode` only tests the split lines); a missing child slot means
"not found" and the tree is unchanged.  At the straddle node the key is
erased from the value set and the node's slot is reset when the node
becomes empty (`none`). -/
def removeNode (k : Rect) (n : QNode) : Option QNode :=
  if hasIntersectionWithRegionSplitLines k n.region then
    let n' := eraseValue n k
    if emptyNode n' then none else some n'
  else
    match hgc : getChild n (getZOrderPos n.region k) with
    | none => some n
    | some c => some (setChild n (getZOrderPos n.region k) (removeNode k c))
termination_by sizeOf n
decreasing_by exact sizeOf_getChild hgc

/-- `QuadTree::remove(key)` on the optional root (`findNode` returns null
on an empty tree, so nothing happens). -/
def removeT (t : Option QNode) (k : Rect) : Option QNode :=
  match t with
  | none => none
  | some n => removeNode k n

/-! ### Structural lemmas for the node tree -/

/-- Subtree keys of an optional child slot. -/
def optSubtree : Option QNode → List Rect
  | none => []
  | some c => subtreeKeys c

/-- Query results of an optional child slot. -/
def optQuery (q : Rect) : Option QNode → List Rect
  | none => []
  | some c => queryNode q c

/-- Keys stored in one child subtree. -/
def childKeys (n : QNode) (z : ZOrderPos) : List Rect :=
  optSubtree (getChild n z)

theorem subtreeKeys_node (reg : Square) (lt lb rt rb : Option QNode) (vals : List Rect) :
    subtreeKeys (.mk reg lt lb rt rb vals) =
      vals ++ optSubtree lt ++ optSubtree lb ++ optSubtree rt ++ optSubtree rb := by
  cases lt <;> cases lb <;> cases rt <;> cases rb <;> rfl

theorem queryNode_node (q : Rect) (reg : Square) (lt lb rt rb : Option QNode) (vals : List Rect) :
    queryNode q (.mk reg lt lb rt rb vals) =
      if hesIntersect q.toBox reg.toBox then
        vals.filter (fun v => hesIntersect q.toBox v.toBox)
          ++ optQuery q rb ++ optQuery q rt ++ optQuery q lb ++ optQuery q lt
      else [] := by
  cases lt <;> cases lb <;> cases rt <;> cases rb <;> rfl

theorem region_setChild (n : QNode) (z : ZOrderPos) (c : Option QNode) :
    (setChild n z c).region = n.region := by
  cases n <;> cases z <;> rfl

theorem values_setChild (n : QNode) (z : ZOrderPos) (c : Option QNode) :
    (setChild n z c).values = n.values := by
  cases n <;> cases z <;> rfl

theorem getChild_setChild_same (n : QNode) (z : ZOrderPos) (c : Option QNode) :
    getChild (setChild n z c) z = c := by
  cases n <;> cases z <;> rfl

theorem getChild_setChild_other (n : QNode) (z z' : ZOrderPos) (c : Option QNode)
    (h : z' ≠ z) : getChild (setChild n z c) z' = getChild n z' := by
  cases n <;> cases z <;> cases z' <;> first | rfl | exact absurd rfl h

theorem setChild_getChild (n : QNode) (z : ZOrderPos) :
    setChild n z (getChild n z) = n := by
  cases n <;> cases z <;> rfl

theorem region_mk (reg : Square) (lt lb rt rb : Option QNode) (vals : List Rect) :
    (QNode.mk reg lt lb rt rb vals).region = reg := rfl

theorem values_mk (reg : Square) (lt lb rt rb : Option QNode) (vals : List Rect) :
    (QNode.mk reg lt lb rt rb vals).values = vals := rfl

/-- Strong induction over the node tree: to prove `P n` one may assume `P`
for every child. -/
theorem qnode_strong_ind (P : QNode → Prop)
    (h : ∀ n : QNode, (∀ z c, getChild n z = some c → P c) → P n) :
    ∀ n, P n
  | .mk reg lt lb rt rb vals =>
    h (QNode.mk reg lt lb rt rb vals) (fun z c hc => by
      cases z <;> simp only [getChild] at hc <;> subst hc <;>
        exact qnode_strong_ind P h c)

theorem count_subtreeKeys (n : QNode) (a : Rect) :
    (subtreeKeys n).count a =
      n.values.count a + (childKeys n .LeftTop).count a +
      (childKeys n .LeftBottom).count a + (childKeys n .RightTop).count a +
      (childKeys n .RightBottom).count a := by
  cases n with
  | mk reg lt lb rt rb vals =>
    rw [subtreeKeys_node]
    simp only [childKeys, getChild, List.count_append, QNode.values]

theorem count_subtreeKeys_setChild (n : QNode) (z : ZOrderPos) (c' : QNode) (a : Rect) :
    (subtreeKeys (setChild n z (some c'))).count a + (childKeys n z).count a =
      (subtreeKeys n).count a + (subtreeKeys c').count a := by
  have h1 := count_subtreeKeys (setChild n z (some c')) a
  have h2 := count_subtreeKeys n a
  have hsame : childKeys (setChild n z (some c')) z = subtreeKeys c' := by
    simp [childKeys, getChild_setChild_same, optSubtree]
  have hv := values_setChild n z (some c')
  have hothers : ∀ z', z' ≠ z →
      childKeys (setChild n z (some c')) z' = childKeys n z' := fun z' hz' => by
    simp [childKeys, getChild_setChild_other n z z' _ hz']
  cases z <;>
    · rw [hv] at h1
      rw [hsame] at h1
      first
      | (rw [hothers .LeftTop (by simp), hothers .LeftBottom (by simp),
            hothers .RightTop (by simp)] at h1; omega)
      | (rw [hothers .LeftTop (by simp), hothers .LeftBottom (by simp),
            hothers .RightBottom (by simp)] at h1; omega)
      | (rw [hothers .LeftTop (by simp), hothers .RightTop (by simp),
            hothers .RightBottom (by simp)] at h1; omega)
      | (rw [hothers .LeftBottom (by simp), hothers .RightTop (by simp),
            hothers .RightBottom (by simp)] at h1; omega)

theorem length_subtreeKeys_setChild (n : QNode) (z : ZOrderPos) (c' : QNode) :
    (subtreeKeys (setChild n z (some c'))).length + (childKeys n z).length =
      (subtreeKeys n).length + (subtreeKeys c').length := by
  cases n with
  | mk reg lt lb rt rb vals =>
    cases z <;>
      simp [setChild, subtreeKeys_node, childKeys, getChild, optSubtree, List.length_append] <;>
      omega

theorem mem_subtreeKeys_values {n : QNode} {a : Rect} (h : a ∈ n.values) :
    a ∈ subtreeKeys n := by
  cases n with
  | mk reg lt lb rt rb vals =>
    rw [subtreeKeys_node]
    exact List.mem_append_left _ (List.mem_append_left _ (List.mem_append_left _
      (List.mem_append_left _ h)))

theorem mem_subtreeKeys_child {n : QNode} {z : ZOrderPos} {c : QNode} {a : Rect}
    (hc : getChild n z = some c) (h : a ∈ subtreeKeys c) : a ∈ subtreeKeys n := by
  have hck : a ∈ childKeys n z := by simp [childKeys, hc, optSubtree, h]
  have := count_subtreeKeys n a
  have h1 : 0 < (childKeys n z).count a := List.count_pos_iff.mpr hck
  have h2 : 0 < (subtreeKeys n).count a := by cases z <;> omega
  exact List.count_pos_iff.mp h2

/-! ### Value-set (`flat_set`) lemmas -/

theorem mem_sortedInsert (k x : Rect) (l : List Rect) :
    x ∈ sortedInsert k l ↔ x = k ∨ x ∈ l := by
  induction l with
  | nil => simp [sortedInsert]
  | cons v vs ih =>
    by_cases h : rectLt k v = true
    · simp [sortedInsert, h]
    · simp [sortedInsert, h, ih]
      tauto

theorem count_sortedInsert (k : Rect) (l : List Rect) (a : Rect) :
    (sortedInsert k l).count a = l.count a + (if a = k then 1 else 0) := by
  induction l with
  | nil => by_cases hak : a = k <;> simp [sortedInsert, hak]
  | cons v vs ih =>
    by_cases h : rectLt k v = true
    · by_cases hak : a = k
      · subst hak
        simp [sortedInsert, h, List.count_cons]
      · simp [sortedInsert, h, List.count_cons, hak]
    · by_cases hak : a = k
      · subst hak
        simp [sortedInsert, h, List.count_cons, ih]
        omega
      · simp [sortedInsert, h, List.count_cons, ih, hak]

theorem length_sortedInsert (k : Rect) (l : List Rect) :
    (sortedInsert k l).length = l.length + 1 := by
  induction l with
  | nil => rfl
  | cons v vs ih =>
    by_cases h : rectLt k v = true <;> simp [sortedInsert, h, ih]

theorem nodup_sortedInsert (k : Rect) (l : List Rect) (hk : k ∉ l) (hl : l.Nodup) :
    (sortedInsert k l).Nodup := by
  have hcount : ∀ a, (sortedInsert k l).count a ≤ 1 := by
    intro a
    rw [count_sortedInsert]
    by_cases ha : a = k
    · subst ha
      rw [List.count_eq_zero.mpr hk, if_pos rfl]
    · have := List.nodup_iff_count_le_one.mp hl a
      rw [if_neg ha]
      omega
  exact List.nodup_iff_count_le_one.mpr hcount

/-! ### Arithmetic about powers of two and the split midpoints -/

theorem two_pow_pos (j : Nat) : (0 : Int) < 2 ^ j := pow_pos (by norm_num) j

theorem tdiv_two_pow (j : Nat) : Int.tdiv ((2 : Int) ^ (j + 1)) 2 = 2 ^ j := by
  have h : (2 : Int) ^ (j + 1) = 2 * 2 ^ j := by ring
  rw [h]
  rw [Int.mul_tdiv_cancel_left _ (by norm_num)]

theorem roundHalf_two_pow (j : Nat) : roundHalf ((2 : Int) ^ (j + 1)) = 2 ^ j := by
  have hmod : ((2 : Int) ^ (j + 1)) % 2 = 0 := by
    have h : (2 : Int) ^ (j + 1) = 2 * 2 ^ j := by ring
    rw [h]
    exact Int.mul_emod_right 2 _
  rw [roundHalf, if_pos hmod, tdiv_two_pow]

theorem two_pow_ne_one {j : Nat} (hj : j ≠ 0) : (2 : Int) ^ j ≠ 1 := by
  obtain ⟨j', rfl⟩ := Nat.exists_eq_succ_of_ne_zero hj
  have h : (2 : Int) ^ (j' + 1) = 2 * 2 ^ j' := by ring
  have := two_pow_pos j'
  omega

theorem toNat_two_pow (j : Nat) : ((2 : Int) ^ j).toNat = 2 ^ j := by
  have h : ((2 : Int) ^ j) = ((2 ^ j : Nat) : Int) := by push_cast; ring
  rw [h, Int.toNat_ofNat]

theorem lt_two_pow_nat (j : Nat) : j < 2 ^ j := Nat.lt_two_pow j

theorem int_le_two_pow_plus (M : Int) : M ≤ 2 ^ (M.toNat + 2) := by
  rcases le_or_lt M 0 with h | h
  · exact h.trans (two_pow_pos _).le
  · have h1 : M = (M.toNat : Int) := (Int.toNat_of_nonneg h.le).symm
    have h2 : M.toNat < 2 ^ M.toNat := Nat.lt_two_pow _
    have h3 : (2 : Nat) ^ M.toNat ≤ 2 ^ (M.toNat + 2) :=
      Nat.pow_le_pow_right (by norm_num) (by omega)
    have h4 : ((2 : Nat) ^ (M.toNat + 2) : Int) = (2 : Int) ^ (M.toNat + 2) := by
      push_cast; ring
    omega

/-! ### Geometry of boxes, regions and routing -/

theorem containsBox_trans {a b c : Box} (h1 : containsBox a b = true)
    (h2 : containsBox b c = true) : containsBox a c = true := by
  simp only [containsBox, containsPt, Bool.and_eq_true, decide_eq_true_eq] at *
  omega

theorem hesIntersect_of_contains {a b q : Box} (h1 : containsBox a b = true)
    (h2 : hesIntersect q b = true) : hesIntersect q a = true := by
  simp only [containsBox, containsPt, hesIntersect, Bool.and_eq_true,
    decide_eq_true_eq] at *
  omega

theorem makeChildRegion_sub (r : Square) (j : Nat) (hs : r.size = 2 ^ (j + 1))
    (z : ZOrderPos) :
    containsBox r.toBox (makeChildRegion r z).toBox = true := by
  have h2 : Int.tdiv r.size 2 = 2 ^ j := by rw [hs]; exact tdiv_two_pow j
  have hround : roundHalf r.size = 2 ^ j := by rw [hs]; exact roundHalf_two_pow j
  have hpos := two_pow_pos j
  have hsz : r.size = 2 ^ j + 2 ^ j := by rw [hs]; ring
  cases z <;>
    simp only [makeChildRegion, getRectMiddleX, getRectMiddleY, containsBox,
      containsPt, Square.toBox, h2, hround, Bool.and_eq_true, decide_eq_true_eq] <;>
    omega

theorem routing_contains (r : Square) (k : Rect) (j : Nat) (hs : r.size = 2 ^ (j + 1))
    (hc : containsBox r.toBox k.toBox = true)
    (hns : hasIntersectionWithRegionSplitLines k r = false)
    (hw : 0 ≤ k.width) (hh : 0 ≤ k.height) :
    containsBox (makeChildRegion r (getZOrderPos r k)).toBox k.toBox = true := by
  have h2 : Int.tdiv r.size 2 = 2 ^ j := by rw [hs]; exact tdiv_two_pow j
  have hround : roundHalf r.size = 2 ^ j := by rw [hs]; exact roundHalf_two_pow j
  have hpos := two_pow_pos j
  have hsz : r.size = 2 ^ j + 2 ^ j := by rw [hs]; ring
  simp only [containsBox, containsPt, Square.toBox, Rect.toBox, Bool.and_eq_true,
    decide_eq_true_eq] at hc
  simp only [hasIntersectionWithRegionSplitLines, getRectMiddleX, getRectMiddleY, h2,
    decide_eq_false_iff_not] at hns
  push_neg at hns
  unfold getZOrderPos
  simp only [getRectMiddleX, getRectMiddleY, h2]
  by_cases hx : k.pos.x < r.pos.x + 2 ^ j <;> by_cases hy : k.pos.y > r.pos.y + 2 ^ j <;>
    simp only [hx, hy, if_true, if_false, makeChildRegion, getRectMiddleX,
      getRectMiddleY, h2, hround, containsBox, containsPt, Square.toBox, Rect.toBox,
      Bool.and_eq_true, decide_eq_true_eq, ite_true, ite_false] <;>
    omega

/-- The supported-key contract of the index (spec 4.3.5: keys with negative
coordinates or extents are undefined behaviour; width/height are
nonnegative by the `Rect` documented precondition). -/
def InContract (k : Rect) : Prop :=
  0 ≤ k.pos.x ∧ 0 ≤ k.pos.y ∧ 0 ≤ k.width ∧ 0 ≤ k.height

instance (k : Rect) : Decidable (InContract k) := by
  unfold InContract
  infer_instance

theorem containsBox_origin_iff (S : Int) (k : Rect) (hk : InContract k) :
    (containsBox (Square.mk ⟨0, 0⟩ S).toBox k.toBox = true ↔ maxExtent k ≤ S) := by
  obtain ⟨h1, h2, h3, h4⟩ := hk
  simp only [containsBox, containsPt, Square.toBox, Rect.toBox, maxExtent,
    Bool.and_eq_true, decide_eq_true_eq, max_le_iff]
  omega

/-! ### The structural invariant of reachable trees -/

/-- Invariant of every node of a reachable tree: the region size is a power
of two; every stored value lies inside the region, and straddles the
region's split lines unless the region is unit-sized (the grow-down stop
rule); the value set is duplicate-free; each present child occupies the
quadrant `makeChildRegion` assigns to its slot; and only non-unit nodes
have children. -/
inductive NodeInv : QNode → Prop where
  | intro : ∀ n : QNode,
      (∃ j : Nat, n.region.size = 2 ^ j) →
      (∀ k ∈ n.values, containsBox n.region.toBox k.toBox = true) →
      (∀ k ∈ n.values, hasIntersectionWithRegionSplitLines k n.region = true ∨
        n.region.size = 1) →
      n.values.Nodup →
      (∀ z c, getChild n z = some c → c.region = makeChildRegion n.region z) →
      (∀ z c, getChild n z = some c → NodeInv c) →
      (∀ z c, getChild n z = some c → n.region.size ≠ 1) →
      NodeInv n

theorem NodeInv.size_pow {n : QNode} (h : NodeInv n) :
    ∃ j : Nat, n.region.size = 2 ^ j := by
  cases h with | intro _ h1 _ _ _ _ _ _ => exact h1

theorem NodeInv.vals_contained {n : QNode} (h : NodeInv n) :
    ∀ k ∈ n.values, containsBox n.region.toBox k.toBox = true := by
  cases h with | intro _ _ h2 _ _ _ _ _ => exact h2

theorem NodeInv.vals_straddle {n : QNode} (h : NodeInv n) :
    ∀ k ∈ n.values, hasIntersectionWithRegionSplitLines k n.region = true ∨
      n.region.size = 1 := by
  cases h with | intro _ _ _ h3 _ _ _ _ => exact h3

theorem NodeInv.vals_nodup {n : QNode} (h : NodeInv n) : n.values.Nodup := by
  cases h with | intro _ _ _ _ h4 _ _ _ => exact h4

theorem NodeInv.child {n : QNode} (h : NodeInv n) {z : ZOrderPos} {c : QNode}
    (hc : getChild n z = some c) :
    c.region = makeChildRegion n.region z ∧ NodeInv c := by
  cases h with | intro _ _ _ _ _ h5 h6 _ => exact ⟨h5 z c hc, h6 z c hc⟩

theorem NodeInv.child_ne_one {n : QNode} (h : NodeInv n) {z : ZOrderPos} {c : QNode}
    (hc : getChild n z = some c) : n.region.size ≠ 1 := by
  cases h with | intro _ _ _ _ _ _ _ h7 => exact h7 z c hc

/-- A node with a child has even power-of-two size `2^(j+1)`, and the
child's region size is the halved `2^j`. -/
theorem NodeInv.parent_child_size {n : QNode} (h : NodeInv n) {z : ZOrderPos}
    {c : QNode} (hc : getChild n z = some c) :
    ∃ j : Nat, n.region.size = 2 ^ (j + 1) ∧ c.region.size = 2 ^ j := by
  obtain ⟨j, hj⟩ := h.size_pow
  have hne := h.child_ne_one hc
  have hj0 : j ≠ 0 := by
    intro h0
    subst h0
    simp at hj
    exact hne hj
  obtain ⟨j', rfl⟩ := Nat.exists_eq_succ_of_ne_zero hj0
  refine ⟨j', hj, ?_⟩
  have hreg := (h.child hc).1
  rw [hreg]
  cases z <;> simp [makeChildRegion] <;> rw [hj] <;> exact roundHalf_two_pow j'

theorem mem_subtreeKeys_iff (n : QNode) (a : Rect) :
    a ∈ subtreeKeys n ↔ a ∈ n.values ∨ ∃ z, a ∈ childKeys n z := by
  cases n with
  | mk reg lt lb rt rb vals =>
    rw [subtreeKeys_node]
    simp only [List.mem_append, QNode.values, values_mk]
    constructor
    · rintro ((((h | h) | h) | h) | h)
      · exact Or.inl h
      · exact Or.inr ⟨.LeftTop, by simpa [childKeys, getChild] using h⟩
      · exact Or.inr ⟨.LeftBottom, by simpa [childKeys, getChild] using h⟩
      · exact Or.inr ⟨.RightTop, by simpa [childKeys, getChild] using h⟩
      · exact Or.inr ⟨.RightBottom, by simpa [childKeys, getChild] using h⟩
    · rintro (h | ⟨z, hz⟩)
      · exact Or.inl (Or.inl (Or.inl (Or.inl h)))
      · cases z
        · exact Or.inl (Or.inl (Or.inl (Or.inr (by simpa [childKeys, getChild] using hz))))
        · exact Or.inl (Or.inl (Or.inr (by simpa [childKeys, getChild] using hz)))
        · exact Or.inl (Or.inr (by simpa [childKeys, getChild] using hz))
        · exact Or.inr (by simpa [childKeys, getChild] using hz)

/-- Every key stored anywhere in a subtree lies inside the subtree root's
region (by the routing rule, keys only descend into quadrants that contain
them). -/
theorem subtreeKeys_contained : ∀ n : QNode, NodeInv n →
    ∀ a ∈ subtreeKeys n, containsBox n.region.toBox a.toBox = true := by
  intro n
  induction n using qnode_strong_ind with
  | _ n ih =>
    intro hinv a ha
    rcases (mem_subtreeKeys_iff n a).mp ha with h | ⟨z, hz⟩
    · exact hinv.vals_contained a h
    · unfold childKeys at hz
      cases hc : getChild n z with
      | none => rw [hc] at hz; cases hz
      | some c =>
        rw [hc] at hz
        have hcc := (ih z c hc) (hinv.child hc).2 a hz
        obtain ⟨j, hpj, _⟩ := hinv.parent_child_size hc
        have hsub := makeChildRegion_sub n.region j hpj z
        rw [← (hinv.child hc).1] at hsub
        exact containsBox_trans hsub hcc

/-- Query correctness at node level: the emitted multiset is exactly the
filter of the subtree keys by intersection with the query box. -/
theorem queryNode_count (q : Rect) : ∀ n : QNode, NodeInv n → ∀ a : Rect,
    (queryNode q n).count a =
      ((subtreeKeys n).filter (fun v => hesIntersect q.toBox v.toBox)).count a := by
  intro n
  induction n using qnode_strong_ind with
  | _ n ih =>
    intro hinv a
    obtain ⟨reg, lt, lb, rt, rb, vals⟩ := n
    by_cases hqr : hesIntersect q.toBox reg.toBox = true
    · rw [queryNode_node, subtreeKeys_node, if_pos hqr]
      have hchild : ∀ z (o : Option QNode), getChild (QNode.mk reg lt lb rt rb vals) z = o →
          (optQuery q o).count a =
            ((optSubtree o).filter (fun v => hesIntersect q.toBox v.toBox)).count a := by
        intro z o hco
        cases o with
        | none => rfl
        | some c => exact ih z c hco ((hinv.child hco).2) a
      have h1 := hchild .LeftTop lt rfl
      have h2 := hchild .LeftBottom lb rfl
      have h3 := hchild .RightTop rt rfl
      have h4 := hchild .RightBottom rb rfl
      simp only [List.filter_append, List.count_append, h1, h2, h3, h4]
      omega
    · have hq0 : queryNode q (QNode.mk reg lt lb rt rb vals) = [] := by
        rw [queryNode_node, if_neg hqr]
      have hf : (subtreeKeys (QNode.mk reg lt lb rt rb vals)).filter
          (fun v => hesIntersect q.toBox v.toBox) = [] := by
        rw [List.filter_eq_nil]
        intro x hx hxq
        exact hqr (hesIntersect_of_contains
          (subtreeKeys_contained _ hinv x hx) hxq)
      rw [hq0, hf]

/-! ### Grow-up -/

theorem growUpGo_keys (k : Rect) : ∀ (f : Nat) (n : QNode),
    subtreeKeys (growUpGo k f n) = subtreeKeys n := by
  intro f
  induction f with
  | zero => intro n; rfl
  | succ f ih =>
    intro n
    simp only [growUpGo]
    split
    · rfl
    · rw [ih, subtreeKeys_node]
      simp [optSubtree]

theorem growUpGo_inv (k : Rect) : ∀ (f : Nat) (n : QNode) (j : Nat),
    n.region.pos = ⟨0, 0⟩ → n.region.size = 2 ^ j → NodeInv n →
    (growUpGo k f n).region.pos = ⟨0, 0⟩ ∧
      (∃ j', (growUpGo k f n).region.size = 2 ^ j') ∧
      NodeInv (growUpGo k f n) := by
  intro f
  induction f with
  | zero => intro n j h1 h2 h3; exact ⟨h1, ⟨j, h2⟩, h3⟩
  | succ f ih =>
    intro n j h1 h2 h3
    simp only [growUpGo]
    split
    · exact ⟨h1, ⟨j, h2⟩, h3⟩
    · have hreg : n.region = (⟨⟨0, 0⟩, (2 : Int) ^ j⟩ : Square) := by
        rw [← h1, ← h2]
      have hsz : ((QNode.mk ⟨⟨0, 0⟩, n.region.size * 2⟩ none (some n) none none
          []).region).size = 2 ^ (j + 1) := by
        simp only [region_mk]
        rw [h2]
        ring
      refine ih _ (j + 1) rfl hsz ?_
      refine NodeInv.intro _ ⟨j + 1, hsz⟩ ?_ ?_ ?_ ?_ ?_ ?_
      · intro k' hk'
        simp only [values_mk] at hk'
        cases hk'
      · intro k' hk'
        simp only [values_mk] at hk'
        cases hk'
      · simp [values_mk]
      · intro z c hc
        cases z <;> simp only [getChild] at hc
        · cases hc
        · cases hc with
          | refl =>
            show n.region = (⟨⟨0, 0⟩, roundHalf (n.region.size * 2)⟩ : Square)
            have hro : roundHalf (n.region.size * 2) = 2 ^ j := by
              rw [h2, show (2 : Int) ^ j * 2 = 2 ^ (j + 1) from by ring]
              exact roundHalf_two_pow j
            rw [hro, hreg]
        · cases hc
        · cases hc
      · intro z c hc
        cases z <;> simp only [getChild] at hc
        · cases hc
        · cases hc with
          | refl => exact h3
        · cases hc
        · cases hc
      · intro z c hc
        simp only [region_mk]
        rw [h2, show (2 : Int) ^ j * 2 = 2 ^ (j + 1) from by ring]
        exact two_pow_ne_one (Nat.succ_ne_zero j)

theorem growUpGo_contains (k : Rect) (hk : InContract k) : ∀ (f : Nat) (n : QNode) (j : Nat),
    n.region.pos = ⟨0, 0⟩ → n.region.size = 2 ^ j →
    maxExtent k ≤ n.region.size * 2 ^ f →
    containsBox (growUpGo k f n).region.toBox k.toBox = true := by
  intro f
  induction f with
  | zero =>
    intro n j h1 h2 h3
    show containsBox n.region.toBox k.toBox = true
    have hreg : n.region = (⟨⟨0, 0⟩, n.region.size⟩ : Square) := by rw [← h1]
    rw [hreg]
    rw [containsBox_origin_iff _ _ hk]
    simpa using h3
  | succ f ih =>
    intro n j h1 h2 h3
    simp only [growUpGo]
    split
    · assumption
    · refine ih _ (j + 1) rfl ?_ ?_
      · simp only [region_mk]
        rw [h2]
        ring
      · simp only [region_mk]
        calc maxExtent k ≤ n.region.size * 2 ^ (f + 1) := h3
          _ = n.region.size * 2 * 2 ^ f := by ring

/-- Descend `m` `LeftBottom` slots. -/
def lbChain : Nat → QNode → Option QNode
  | 0, n => some n
  | m+1, n =>
    match getChild n .LeftBottom with
    | none => none
    | some c => lbChain m c

theorem lbChain_snoc (m : Nat) : ∀ n : QNode,
    lbChain (m + 1) n = (lbChain m n).bind (fun x => getChild x .LeftBottom) := by
  induction m with
  | zero =>
    intro n
    simp only [lbChain]
    cases hc : getChild n .LeftBottom <;> simp [hc, lbChain]
  | succ m ih =>
    intro n
    rw [show lbChain (m + 1 + 1) n =
        (match getChild n .LeftBottom with
         | none => none
         | some c => lbChain (m + 1) c) from rfl]
    rw [show lbChain (m + 1) n =
        (match getChild n .LeftBottom with
         | none => none
         | some c => lbChain m c) from rfl]
    cases hc : getChild n .LeftBottom with
    | none => rfl
    | some c => exact ih c

theorem growUpGo_steps (k : Rect) : ∀ (f : Nat) (n : QNode),
    n.region.pos = ⟨0, 0⟩ →
    ∃ m : Nat, m ≤ f ∧
      (growUpGo k f n).region = ⟨⟨0, 0⟩, n.region.size * 2 ^ m⟩ ∧
      (∀ i : Nat, i < m →
        containsBox (Square.mk ⟨0, 0⟩ (n.region.size * 2 ^ i)).toBox k.toBox = false) ∧
      lbChain m (growUpGo k f n) = some n := by
  intro f
  induction f with
  | zero =>
    intro n h1
    refine ⟨0, Nat.le_refl 0, ?_, by omega, rfl⟩
    show n.region = _
    rw [← h1, pow_zero, mul_one]
  | succ f ih =>
    intro n h1
    simp only [growUpGo]
    split
    · refine ⟨0, by omega, ?_, by omega, rfl⟩
      show n.region = _
      rw [← h1, pow_zero, mul_one]
    · rename_i hncont
      obtain ⟨m', hm1, hm2, hm3, hm4⟩ :=
        ih (QNode.mk ⟨⟨0, 0⟩, n.region.size * 2⟩ none (some n) none none []) rfl
      refine ⟨m' + 1, by omega, ?_, ?_, ?_⟩
      · rw [hm2]
        simp only [region_mk]
        congr 1
        ring
      · intro i hi
        cases i with
        | zero =>
          have hreg : (Square.mk ⟨0, 0⟩ (n.region.size * 2 ^ 0)) = n.region := by
            rw [← h1, pow_zero, mul_one]
          rw [hreg]
          cases hb : containsBox n.region.toBox k.toBox with
          | false => rfl
          | true => exact absurd hb hncont
        | succ i' =>
          have := hm3 i' (by omega)
          simp only [region_mk] at this
          rw [show n.region.size * 2 ^ (i' + 1) = n.region.size * 2 * 2 ^ i' from by ring]
          exact this
      · rw [lbChain_snoc, hm4]
        rfl

/-! ### Grow-down -/

theorem addValue_mem (n : QNode) (k : Rect) (h : k ∈ n.values) :
    addValue n k = (n, false) := by
  cases n with
  | mk reg lt lb rt rb vals =>
    simp only [values_mk] at h
    simp [addValue, setInsert, h]

theorem addValue_fresh (n : QNode) (k : Rect) (h : k ∉ n.values) :
    (addValue n k).2 = true ∧ (addValue n k).1.region = n.region ∧
    (addValue n k).1.values = sortedInsert k n.values ∧
    (∀ z, getChild (addValue n k).1 z = getChild n z) ∧
    (∀ a, (subtreeKeys (addValue n k).1).count a =
      (subtreeKeys n).count a + (if a = k then 1 else 0)) ∧
    (subtreeKeys (addValue n k).1).length = (subtreeKeys n).length + 1 := by
  cases n with
  | mk reg lt lb rt rb vals =>
    simp only [values_mk] at h
    have haddv : addValue (QNode.mk reg lt lb rt rb vals) k =
        (QNode.mk reg lt lb rt rb (sortedInsert k vals), true) := by
      simp [addValue, setInsert, h]
    rw [haddv]
    refine ⟨rfl, rfl, rfl, fun z => by cases z <;> rfl, ?_, ?_⟩
    · intro a
      rw [subtreeKeys_node, subtreeKeys_node]
      simp only [List.count_append, count_sortedInsert]
      omega
    · rw [subtreeKeys_node, subtreeKeys_node]
      simp only [List.length_append, length_sortedInsert]
      omega

theorem growDownGo_general (k : Rect) : ∀ (f : Nat) (n : QNode),
    (growDownGo k f n).1.region = n.region ∧
    ((growDownGo k f n).2 = false →
      (growDownGo k f n).1 = n ∧ k ∈ subtreeKeys n) ∧
    ((growDownGo k f n).2 = true →
      (∀ a, (subtreeKeys (growDownGo k f n).1).count a =
        (subtreeKeys n).count a + (if a = k then 1 else 0)) ∧
      (subtreeKeys (growDownGo k f n).1).length = (subtreeKeys n).length + 1) := by
  have haddcase : ∀ n : QNode,
      (addValue n k).1.region = n.region ∧
      ((addValue n k).2 = false → (addValue n k).1 = n ∧ k ∈ subtreeKeys n) ∧
      ((addValue n k).2 = true →
        (∀ a, (subtreeKeys (addValue n k).1).count a =
          (subtreeKeys n).count a + (if a = k then 1 else 0)) ∧
        (subtreeKeys (addValue n k).1).length = (subtreeKeys n).length + 1) := by
    intro n
    by_cases hm : k ∈ n.values
    · rw [addValue_mem n k hm]
      exact ⟨rfl, fun _ => ⟨rfl, mem_subtreeKeys_values hm⟩, fun h => by cases h⟩
    · obtain ⟨hb, hreg, _, _, hcount, hlen⟩ := addValue_fresh n k hm
      refine ⟨hreg, fun hf => ?_, fun _ => ⟨hcount, hlen⟩⟩
      rw [hb] at hf
      cases hf
  intro f
  induction f with
  | zero => intro n; exact haddcase n
  | succ f ih =>
    intro n
    simp only [growDownGo]
    split
    · exact haddcase n
    · rename_i hnstop
      have hcgen : ∀ c : QNode,
          (getChild n (getZOrderPos n.region k)).getD
            (.mk (makeChildRegion n.region (getZOrderPos n.region k))
              none none none none []) = c →
          (childKeys n (getZOrderPos n.region k)).count =
            (subtreeKeys c).count ∧
          (childKeys n (getZOrderPos n.region k)).length =
            (subtreeKeys c).length ∧
          (∀ x, x ∈ subtreeKeys c → x ∈ subtreeKeys n) ∧
          ((growDownGo k f c).1 = c →
            setChild n (getZOrderPos n.region k) (some (growDownGo k f c).1) = n ∨
            subtreeKeys c = []) := by
        intro c hc
        cases hgc : getChild n (getZOrderPos n.region k) with
        | some c0 =>
          rw [hgc] at hc
          simp only [Option.getD_some] at hc
          subst hc
          refine ⟨by simp [childKeys, hgc, optSubtree], by simp [childKeys, hgc, optSubtree],
            fun x hx => mem_subtreeKeys_child hgc hx, fun heq => ?_⟩
          left
          rw [heq, ← hgc, setChild_getChild]
        | none =>
          rw [hgc] at hc
          simp only [Option.getD_none] at hc
          subst hc
          refine ⟨?_, ?_, ?_, fun _ => Or.inr rfl⟩
          · simp [childKeys, hgc, optSubtree, subtreeKeys_node]
          · simp [childKeys, hgc, optSubtree, subtreeKeys_node]
          · intro x hx
            rw [show subtreeKeys (QNode.mk (makeChildRegion n.region
              (getZOrderPos n.region k)) none none none none []) = [] from rfl] at hx
            cases hx
      set z := getZOrderPos n.region k with hz
      set c := (getChild n z).getD (.mk (makeChildRegion n.region z) none none none none [])
        with hcdef
      obtain ⟨hck, hcl, hmem, hunch⟩ := hcgen c rfl
      obtain ⟨ihreg, ihfalse, ihtrue⟩ := ih c
      refine ⟨?_, ?_, ?_⟩
      · exact region_setChild n z _
      · intro hf
        obtain ⟨hc1, hc2⟩ := ihfalse hf
        rcases hunch hc1 with heq | hempty
        · exact ⟨heq, hmem k hc2⟩
        · rw [hempty] at hc2
          cases hc2
      · intro ht
        obtain ⟨ihcount, ihlen⟩ := ihtrue ht
        constructor
        · intro a
          show (subtreeKeys (setChild n z (some (growDownGo k f c).1))).count a =
            (subtreeKeys n).count a + (if a = k then 1 else 0)
          have hset := count_subtreeKeys_setChild n z (growDownGo k f c).1 a
          have h1 := congrFun hck a
          have h2 := ihcount a
          omega
        · show (subtreeKeys (setChild n z (some (growDownGo k f c).1))).length =
            (subtreeKeys n).length + 1
          have hset := length_subtreeKeys_setChild n z (growDownGo k f c).1
          omega

theorem two_pow_int_inj {a b : Nat} (h : (2 : Int) ^ a = (2 : Int) ^ b) : a = b := by
  have ha := toNat_two_pow a
  have hb := toNat_two_pow b
  have hn : (2 : Nat) ^ a = 2 ^ b := by rw [← ha, ← hb, h]
  exact Nat.pow_right_injective (by norm_num) hn

theorem setChild_nodeInv (n : QNode) (z : ZOrderPos) (c' : QNode)
    (hinv : NodeInv n) (hne : n.region.size ≠ 1)
    (hreg : c'.region = makeChildRegion n.region z) (hc' : NodeInv c') :
    NodeInv (setChild n z (some c')) := by
  refine NodeInv.intro _ ?_ ?_ ?_ ?_ ?_ ?_ ?_
  · rw [region_setChild]
    exact hinv.size_pow
  · rw [region_setChild, values_setChild]
    exact hinv.vals_contained
  · rw [region_setChild, values_setChild]
    exact hinv.vals_straddle
  · rw [values_setChild]
    exact hinv.vals_nodup
  · intro z' c'' hc''
    rw [region_setChild]
    by_cases hzz : z' = z
    · subst hzz
      rw [getChild_setChild_same] at hc''
      cases hc''
      exact hreg
    · rw [getChild_setChild_other n z z' _ hzz] at hc''
      exact (hinv.child hc'').1
  · intro z' c'' hc''
    by_cases hzz : z' = z
    · subst hzz
      rw [getChild_setChild_same] at hc''
      cases hc''
      exact hc'
    · rw [getChild_setChild_other n z z' _ hzz] at hc''
      exact (hinv.child hc'').2
  · intro z' c'' hc''
    rw [region_setChild]
    exact hne

theorem growDownGo_inv (k : Rect) (hw : 0 ≤ k.width) (hh : 0 ≤ k.height) :
    ∀ (f : Nat) (j : Nat) (n : QNode), n.region.size = 2 ^ j → j < f → NodeInv n →
      containsBox n.region.toBox k.toBox = true →
      NodeInv (growDownGo k f n).1 := by
  have haddinv : ∀ n : QNode, NodeInv n →
      containsBox n.region.toBox k.toBox = true →
      (hasIntersectionWithRegionSplitLines k n.region = true ∨ n.region.size = 1) →
      NodeInv (addValue n k).1 := by
    intro n hinv hc hstop
    by_cases hm : k ∈ n.values
    · rw [addValue_mem n k hm]
      exact hinv
    · obtain ⟨_, hreg, hvals, hch, _, _⟩ := addValue_fresh n k hm
      refine NodeInv.intro _ ?_ ?_ ?_ ?_ ?_ ?_ ?_
      · rw [hreg]
        exact hinv.size_pow
      · intro k' hk'
        rw [hvals, mem_sortedInsert] at hk'
        rw [hreg]
        rcases hk' with rfl | hk'
        · exact hc
        · exact hinv.vals_contained k' hk'
      · intro k' hk'
        rw [hvals, mem_sortedInsert] at hk'
        rw [hreg]
        rcases hk' with rfl | hk'
        · exact hstop
        · exact hinv.vals_straddle k' hk'
      · rw [hvals]
        exact nodup_sortedInsert k n.values hm hinv.vals_nodup
      · intro z c hcz
        rw [hch z] at hcz
        rw [hreg]
        exact (hinv.child hcz).1
      · intro z c hcz
        rw [hch z] at hcz
        exact (hinv.child hcz).2
      · intro z c hcz
        rw [hch z] at hcz
        rw [hreg]
        exact hinv.child_ne_one hcz
  intro f
  induction f with
  | zero =>
    intro j n _ hjf
    omega
  | succ f ih =>
    intro j n hs hjf hinv hc
    simp only [growDownGo]
    split
    · rename_i hstop
      refine haddinv n hinv hc ?_
      rcases hstop with h | h
      · exact Or.inl h
      · exact Or.inr h
    · rename_i hnstop
      push_neg at hnstop
      obtain ⟨hnstr, hne1⟩ := hnstop
      have hj0 : j ≠ 0 := by
        intro h0
        subst h0
        simp at hs
        exact hne1 hs
      obtain ⟨j', rfl⟩ := Nat.exists_eq_succ_of_ne_zero hj0
      show NodeInv (setChild n (getZOrderPos n.region k)
        (some (growDownGo k f ((getChild n (getZOrderPos n.region k)).getD
          (.mk (makeChildRegion n.region (getZOrderPos n.region k))
            none none none none []))).1))
      set z := getZOrderPos n.region k with hzdef
      have hnstrf : hasIntersectionWithRegionSplitLines k n.region = false := by
        cases hb : hasIntersectionWithRegionSplitLines k n.region
        · rfl
        · exact absurd hb hnstr
      have hroute := routing_contains n.region k j' hs hc hnstrf hw hh
      cases hgc : getChild n z with
      | none =>
        simp only [hgc, Option.getD_none]
        have hcsize : (QNode.mk (makeChildRegion n.region z) none none none none
            []).region.size = 2 ^ j' := by
          simp only [region_mk]
          cases z <;> simp only [makeChildRegion] <;> rw [hs] <;>
            exact roundHalf_two_pow j'
        have hcinv : NodeInv (.mk (makeChildRegion n.region z) none none none none []) := by
          refine NodeInv.intro _ ⟨j', hcsize⟩ ?_ ?_ ?_ ?_ ?_ ?_
          · intro k' hk'
            simp only [values_mk] at hk'
            cases hk'
          · intro k' hk'
            simp only [values_mk] at hk'
            cases hk'
          · simp [values_mk]
          · intro z' c hcz
            cases z' <;> simp only [getChild] at hcz <;> cases hcz
          · intro z' c hcz
            cases z' <;> simp only [getChild] at hcz <;> cases hcz
          · intro z' c hcz
            cases z' <;> simp only [getChild] at hcz <;> cases hcz
        have hdone := ih j' _ hcsize (by omega) hcinv (by
          show containsBox (QNode.mk (makeChildRegion n.region z) none none none none
            []).region.toBox k.toBox = true
          simp only [region_mk]
          exact hroute)
        exact setChild_nodeInv n z _ hinv hne1
          ((growDownGo_general k f _).1.trans (by simp only [region_mk])) hdone
      | some c0 =>
        simp only [hgc, Option.getD_some]
        obtain ⟨jc, hpar, hcsize⟩ := hinv.parent_child_size hgc
        have hjc : jc = j' := by
          have h2 : (2 : Int) ^ (jc + 1) = 2 ^ (j' + 1) := by rw [← hpar, hs]
          have := two_pow_int_inj h2
          omega
        subst hjc
        have hcc : containsBox c0.region.toBox k.toBox = true := by
          rw [(hinv.child hgc).1]
          exact hroute
        have hdone := ih jc c0 hcsize (by omega) (hinv.child hgc).2 hcc
        exact setChild_nodeInv n z _ hinv hne1
          ((growDownGo_general k f c0).1.trans (hinv.child hgc).1) hdone

/-! ### Remove -/

/-- Replacing one child slot (with `none`, or with a node that has the same
region as the current occupant) preserves the node invariant. -/
theorem replaceChild_nodeInv (n : QNode) (z : ZOrderPos) (o : Option QNode)
    (hinv : NodeInv n)
    (ho : ∀ c', o = some c' →
      ∃ c, getChild n z = some c ∧ c'.region = c.region ∧ NodeInv c') :
    NodeInv (setChild n z o) := by
  have hchildsome : ∀ z' c'', getChild (setChild n z o) z' = some c'' →
      (z' = z ∧ o = some c'') ∨ (z' ≠ z ∧ getChild n z' = some c'') := by
    intro z' c'' hcz
    by_cases hzz : z' = z
    · subst hzz
      rw [getChild_setChild_same] at hcz
      exact Or.inl ⟨rfl, hcz⟩
    · rw [getChild_setChild_other n z z' _ hzz] at hcz
      exact Or.inr ⟨hzz, hcz⟩
  refine NodeInv.intro _ ?_ ?_ ?_ ?_ ?_ ?_ ?_
  · rw [region_setChild]
    exact hinv.size_pow
  · rw [region_setChild, values_setChild]
    exact hinv.vals_contained
  · rw [region_setChild, values_setChild]
    exact hinv.vals_straddle
  · rw [values_setChild]
    exact hinv.vals_nodup
  · intro z' c'' hcz
    rw [region_setChild]
    rcases hchildsome z' c'' hcz with ⟨rfl, hoc⟩ | ⟨_, hgc⟩
    · obtain ⟨c, hgc, hr, _⟩ := ho c'' hoc
      rw [hr]
      exact (hinv.child hgc).1
    · exact (hinv.child hgc).1
  · intro z' c'' hcz
    rcases hchildsome z' c'' hcz with ⟨rfl, hoc⟩ | ⟨_, hgc⟩
    · obtain ⟨c, hgc, _, hi⟩ := ho c'' hoc
      exact hi
    · exact (hinv.child hgc).2
  · intro z' c'' hcz
    rw [region_setChild]
    rcases hchildsome z' c'' hcz with ⟨rfl, hoc⟩ | ⟨_, hgc⟩
    · obtain ⟨c, hgc, _, _⟩ := ho c'' hoc
      exact hinv.child_ne_one hgc
    · exact hinv.child_ne_one hgc

theorem region_eraseValue (n : QNode) (k : Rect) :
    (eraseValue n k).region = n.region := by
  cases n
  rfl

theorem values_eraseValue (n : QNode) (k : Rect) :
    (eraseValue n k).values = n.values.filter (fun v => v ≠ k) := by
  cases n
  rfl

theorem getChild_eraseValue (n : QNode) (k : Rect) (z : ZOrderPos) :
    getChild (eraseValue n k) z = getChild n z := by
  cases n <;> cases z <;> rfl

theorem eraseValue_nodeInv (n : QNode) (k : Rect) (hinv : NodeInv n) :
    NodeInv (eraseValue n k) := by
  refine NodeInv.intro _ ?_ ?_ ?_ ?_ ?_ ?_ ?_
  · rw [region_eraseValue]
    exact hinv.size_pow
  · intro k' hk'
    rw [values_eraseValue, List.mem_filter] at hk'
    rw [region_eraseValue]
    exact hinv.vals_contained k' hk'.1
  · intro k' hk'
    rw [values_eraseValue, List.mem_filter] at hk'
    rw [region_eraseValue]
    exact hinv.vals_straddle k' hk'.1
  · rw [values_eraseValue]
    exact List.Nodup.filter _ hinv.vals_nodup
  · intro z c hcz
    rw [getChild_eraseValue] at hcz
    rw [region_eraseValue]
    exact (hinv.child hcz).1
  · intro z c hcz
    rw [getChild_eraseValue] at hcz
    exact (hinv.child hcz).2
  · intro z c hcz
    rw [getChild_eraseValue] at hcz
    rw [region_eraseValue]
    exact hinv.child_ne_one hcz

theorem removeNode_inv (k : Rect) : ∀ n : QNode, NodeInv n →
    ∀ n', removeNode k n = some n' → n'.region = n.region ∧ NodeInv n' := by
  intro n
  induction n using qnode_strong_ind with
  | _ n ih =>
    intro hinv n' hrm
    rw [removeNode] at hrm
    by_cases hstr : hasIntersectionWithRegionSplitLines k n.region = true
    · rw [if_pos hstr] at hrm
      rw [show (let m := eraseValue n k;
        if emptyNode m = true then none else some m) =
        (if emptyNode (eraseValue n k) = true then none
         else some (eraseValue n k)) from rfl] at hrm
      split at hrm
      · cases hrm
      · cases hrm
        exact ⟨region_eraseValue n k, eraseValue_nodeInv n k hinv⟩
    · rw [if_neg hstr] at hrm
      split at hrm
      · cases hrm
        exact ⟨rfl, hinv⟩
      · rename_i c hgc
        cases hrm
        refine ⟨region_setChild _ _ _, ?_⟩
        refine replaceChild_nodeInv _ _ _ hinv ?_
        intro c' hc'
        obtain ⟨hr, hi⟩ := ih _ c hgc (hinv.child hgc).2 c' hc'
        exact ⟨c, hgc, hr, hi⟩

theorem count_subtreeKeys_setChild_none (n : QNode) (z : ZOrderPos) (a : Rect) :
    (subtreeKeys (setChild n z none)).count a + (childKeys n z).count a =
      (subtreeKeys n).count a := by
  cases n with
  | mk reg lt lb rt rb vals =>
    cases z <;>
      simp [setChild, subtreeKeys_node, childKeys, getChild, optSubtree,
        List.count_append] <;>
      omega

theorem count_filter_le (p : Rect → Bool) (l : List Rect) (a : Rect) :
    (l.filter p).count a ≤ l.count a :=
  List.Sublist.count_le (List.filter_sublist l) a

theorem removeNode_count (k : Rect) : ∀ n : QNode, ∀ a : Rect,
    (optSubtree (removeNode k n)).count a ≤ (subtreeKeys n).count a := by
  intro n
  induction n using qnode_strong_ind with
  | _ n ih =>
    intro a
    rw [removeNode]
    by_cases hstr : hasIntersectionWithRegionSplitLines k n.region = true
    · rw [if_pos hstr]
      rw [show (let m := eraseValue n k;
        if emptyNode m = true then none else some m) =
        (if emptyNode (eraseValue n k) = true then none
         else some (eraseValue n k)) from rfl]
      split
      · simp [optSubtree]
      · show (subtreeKeys (eraseValue n k)).count a ≤ _
        obtain ⟨reg, lt, lb, rt, rb, vals⟩ := n
        show (subtreeKeys (QNode.mk reg lt lb rt rb
          (vals.filter (fun v => v ≠ k)))).count a ≤ _
        rw [subtreeKeys_node, subtreeKeys_node]
        simp only [List.count_append]
        have := count_filter_le (fun v => v ≠ k) vals a
        omega
    · rw [if_neg hstr]
      split
      · exact Nat.le_refl _
      · rename_i c hgc
        show (subtreeKeys (setChild n (getZOrderPos n.region k)
          (removeNode k c))).count a ≤ _
        have hck : (childKeys n (getZOrderPos n.region k)).count a =
            (subtreeKeys c).count a := by
          simp [childKeys, hgc, optSubtree]
        cases hrc : removeNode k c with
        | none =>
          have hrec := ih _ c hgc a
          rw [hrc] at hrec
          simp only [optSubtree] at hrec
          have hset := count_subtreeKeys_setChild_none n (getZOrderPos n.region k) a
          omega
        | some c' =>
          have hrec := ih _ c hgc a
          rw [hrc] at hrec
          simp only [optSubtree] at hrec
          have hset := count_subtreeKeys_setChild n (getZOrderPos n.region k) c' a
          omega

/-! ### Tree-level invariants and reachability -/

/-- The root invariant of well-formed trees: the root (when present) is
anchored at the origin and satisfies the node invariant. -/
def StateInv (t : Option QNode) : Prop :=
  ∀ n, t = some n → n.region.pos = ⟨0, 0⟩ ∧ NodeInv n

theorem creatRoot_props (k : Rect) :
    (creatRoot k).region.pos = ⟨0, 0⟩ ∧ (∃ j, (creatRoot k).region.size = 2 ^ j) ∧
    NodeInv (creatRoot k) ∧ subtreeKeys (creatRoot k) = [] := by
  have hpow : ∃ j, (creatRoot k).region.size = 2 ^ j := by
    show ∃ j, (if max (k.toBox.tr.x) (k.toBox.tr.y) ≤ 0 then (1 : Int)
      else 2 ^ (log2floor (max (k.toBox.tr.x) (k.toBox.tr.y)).toNat
        (max (k.toBox.tr.x) (k.toBox.tr.y)).toNat + 1)) = 2 ^ j
    split
    · exact ⟨0, rfl⟩
    · exact ⟨_, rfl⟩
  refine ⟨rfl, hpow, ?_, rfl⟩
  refine NodeInv.intro _ hpow ?_ ?_ ?_ ?_ ?_ ?_
  · intro k' hk'
    cases hk'
  · intro k' hk'
    cases hk'
  · exact List.nodup_nil
  · intro z c hcz
    cases z <;> cases hcz
  · intro z c hcz
    cases z <;> cases hcz
  · intro z c hcz
    cases z <;> cases hcz

theorem insertT_inv (t : Option QNode) (k : Rect) (h : StateInv t)
    (hk : InContract k) : StateInv (insertT t k) := by
  have hroot0 : (t.getD (creatRoot k)).region.pos = ⟨0, 0⟩ ∧
      (∃ j, (t.getD (creatRoot k)).region.size = 2 ^ j) ∧
      NodeInv (t.getD (creatRoot k)) := by
    cases t with
    | none =>
      obtain ⟨h1, h2, h3, _⟩ := creatRoot_props k
      exact ⟨h1, h2, h3⟩
    | some n =>
      obtain ⟨h1, h2⟩ := h n rfl
      exact ⟨h1, h2.size_pow, h2⟩
  obtain ⟨hp0, ⟨j0, hj0⟩, hi0⟩ := hroot0
  obtain ⟨hp1, ⟨j1, hj1⟩, hi1⟩ :=
    growUpGo_inv k ((maxExtent k).toNat + 2) (t.getD (creatRoot k)) j0 hp0 hj0 hi0
  have hbound : maxExtent k ≤ (t.getD (creatRoot k)).region.size *
      2 ^ ((maxExtent k).toNat + 2) := by
    have h1 : maxExtent k ≤ 2 ^ ((maxExtent k).toNat + 2) := int_le_two_pow_plus _
    have h2 : (1 : Int) ≤ (t.getD (creatRoot k)).region.size := by
      rw [hj0]
      exact (two_pow_pos j0)
    have h3 : (0 : Int) ≤ 2 ^ ((maxExtent k).toNat + 2) := (two_pow_pos _).le
    calc maxExtent k ≤ 2 ^ ((maxExtent k).toNat + 2) := h1
      _ = 1 * 2 ^ ((maxExtent k).toNat + 2) := by ring
      _ ≤ (t.getD (creatRoot k)).region.size * 2 ^ ((maxExtent k).toNat + 2) :=
          mul_le_mul_of_nonneg_right h2 h3
  have hcont := growUpGo_contains k hk ((maxExtent k).toNat + 2)
    (t.getD (creatRoot k)) j0 hp0 hj0 hbound
  have hfuel : j1 < (growUpIfNeeds (t.getD (creatRoot k)) k).region.size.toNat + 1 := by
    have : (growUpIfNeeds (t.getD (creatRoot k)) k).region.size.toNat = 2 ^ j1 := by
      show (growUpGo k ((maxExtent k).toNat + 2) (t.getD (creatRoot k))).region.size.toNat
        = 2 ^ j1
      rw [hj1, toNat_two_pow]
    rw [this]
    have := Nat.lt_two_pow j1
    omega
  have hinv2 := growDownGo_inv k hk.2.2.1 hk.2.2.2
    ((growUpIfNeeds (t.getD (creatRoot k)) k).region.size.toNat + 1) j1
    (growUpIfNeeds (t.getD (creatRoot k)) k) hj1 hfuel hi1 hcont
  intro n hn
  have hn' : n = (growDownGo k
      ((growUpIfNeeds (t.getD (creatRoot k)) k).region.size.toNat + 1)
      (growUpIfNeeds (t.getD (creatRoot k)) k)).1 := by
    have : insertT t k = some (growDownGo k
      ((growUpIfNeeds (t.getD (creatRoot k)) k).region.size.toNat + 1)
      (growUpIfNeeds (t.getD (creatRoot k)) k)).1 := rfl
    rw [this] at hn
    cases hn
    rfl
  subst hn'
  refine ⟨?_, hinv2⟩
  rw [(growDownGo_general k _ _).1]
  exact hp1

theorem removeT_inv (t : Option QNode) (k : Rect) (h : StateInv t) :
    StateInv (removeT t k) := by
  cases t with
  | none => intro n hn; cases hn
  | some r =>
    intro n hn
    rw [show removeT (some r) k = removeNode k r from rfl] at hn
    obtain ⟨h1, h2⟩ := h r rfl
    obtain ⟨hr, hi⟩ := removeNode_inv k r h2 n hn
    exact ⟨hr ▸ h1, hi⟩

/-- Reachable trees: any sequence of in-contract `insert`s and arbitrary
`remove`s starting from the empty tree (spec 4.3.5 declares keys outside
the positive quadrant undefined behaviour). -/
inductive Reach : Option QNode → Prop where
  | start : Reach none
  | ins : ∀ t k, Reach t → InContract k → Reach (insertT t k)
  | rem : ∀ t k, Reach t → Reach (removeT t k)

/-- Reachable trees in which no insert re-inserts a key that is still
stored (the regime of the repository's own test harness, which feeds the
index from a duplicate-free `std::set`). -/
inductive ReachD : Option QNode → Prop where
  | start : ReachD none
  | ins : ∀ t k, ReachD t → InContract k → k ∉ allKeysT t → ReachD (insertT t k)
  | rem : ∀ t k, ReachD t → ReachD (removeT t k)

theorem reachD_reach {t : Option QNode} (h : ReachD t) : Reach t := by
  induction h with
  | start => exact Reach.start
  | ins t k _ hk _ ih => exact Reach.ins t k ih hk
  | rem t k _ ih => exact Reach.rem t k ih

theorem reach_stateInv {t : Option QNode} (h : Reach t) : StateInv t := by
  induction h with
  | start => intro n hn; cases hn
  | ins t k _ hk ih => exact insertT_inv t k ih hk
  | rem t k _ ih => exact removeT_inv t k ih

/-! ### Key accounting across operations -/

theorem allKeysT_eq_optSubtree (o : Option QNode) : allKeysT o = optSubtree o := by
  cases o <;> rfl

theorem insertRet_spec (t : Option QNode) (k : Rect) :
    ((insertRet t k).2 = true →
      (∀ a, (allKeysT (insertRet t k).1).count a =
        (allKeysT t).count a + (if a = k then 1 else 0)) ∧
      (allKeysT (insertRet t k).1).length = (allKeysT t).length + 1) ∧
    ((insertRet t k).2 = false →
      allKeysT (insertRet t k).1 = allKeysT t ∧ k ∈ allKeysT t) := by
  have hg := growDownGo_general k
    ((growUpIfNeeds (t.getD (creatRoot k)) k).region.size.toNat + 1)
    (growUpIfNeeds (t.getD (creatRoot k)) k)
  have hkeys1 : subtreeKeys (growUpIfNeeds (t.getD (creatRoot k)) k) =
      subtreeKeys (t.getD (creatRoot k)) := growUpGo_keys k _ _
  have hkeys0 : subtreeKeys (t.getD (creatRoot k)) = allKeysT t := by
    cases t with
    | none => exact (creatRoot_props k).2.2.2
    | some n => rfl
  have h1 : (insertRet t k).1 = some (growDownGo k
      ((growUpIfNeeds (t.getD (creatRoot k)) k).region.size.toNat + 1)
      (growUpIfNeeds (t.getD (creatRoot k)) k)).1 := rfl
  have h2 : (insertRet t k).2 = (growDownGo k
      ((growUpIfNeeds (t.getD (creatRoot k)) k).region.size.toNat + 1)
      (growUpIfNeeds (t.getD (creatRoot k)) k)).2 := rfl
  constructor
  · intro hb
    rw [h2] at hb
    obtain ⟨hcount, hlen⟩ := hg.2.2 hb
    constructor
    · intro a
      rw [h1]
      show (subtreeKeys _).count a = _
      rw [hcount a, hkeys1, hkeys0]
    · rw [h1]
      show (subtreeKeys _).length = _
      rw [hlen, hkeys1, hkeys0]
  · intro hb
    rw [h2] at hb
    obtain ⟨hsame, hmem⟩ := hg.2.1 hb
    rw [hkeys1, hkeys0] at hmem
    refine ⟨?_, hmem⟩
    rw [h1]
    show subtreeKeys _ = _
    rw [hsame, hkeys1, hkeys0]

theorem removeT_count (t : Option QNode) (k : Rect) (a : Rect) :
    (allKeysT (removeT t k)).count a ≤ (allKeysT t).count a := by
  cases t with
  | none => exact Nat.le_refl _
  | some r =>
    rw [show removeT (some r) k = removeNode k r from rfl,
      allKeysT_eq_optSubtree]
    exact removeNode_count k r a

theorem reachD_nodup {t : Option QNode} (h : ReachD t) : (allKeysT t).Nodup := by
  induction h with
  | start => exact List.nodup_nil
  | ins t k _ hk hnotin ih =>
    rw [List.nodup_iff_count_le_one] at ih ⊢
    intro a
    show (allKeysT (insertRet t k).1).count a ≤ 1
    cases hb : (insertRet t k).2 with
    | false =>
      obtain ⟨_, hmem⟩ := (insertRet_spec t k).2 hb
      exact absurd hmem hnotin
    | true =>
      obtain ⟨hcount, _⟩ := (insertRet_spec t k).1 hb
      rw [hcount a]
      by_cases hak : a = k
      · subst hak
        rw [List.count_eq_zero.mpr hnotin, if_pos rfl]
      · rw [if_neg hak]
        have := ih a
        omega
  | rem t k _ ih =>
    rw [List.nodup_iff_count_le_one] at ih ⊢
    intro a
    have h1 := removeT_count t k a
    have h2 := ih a
    omega

/-! ### Concrete scenario: a key that ends up stored in two nodes

With keys A=((3,3),0,0) and B=((4,4),0,0) the tree descends to the unit
node at (3,3) (the straddle test fails all the way down), so B is stored
in a unit leaf.  Inserting C=((0,0),5,5) grows the root up; re-inserting
B afterwards routes to the (new, larger) root itself, where B is absent
from the local flat_set, so a second copy of B is stored. -/

def keyA : Rect := ⟨⟨3, 3⟩, 0, 0⟩

def keyB : Rect := ⟨⟨4, 4⟩, 0, 0⟩

def keyC : Rect := ⟨⟨0, 0⟩, 5, 5⟩

def treeAB : Option QNode := insertT (insertT none keyA) keyB

def treeABC : Option QNode := insertT treeAB keyC

def treeABCB : Option QNode := insertT treeABC keyB

/-- Claim C1 (amended): for trees built by duplicate-free insertions and
removals, the stored keys are duplicate-free and `query q` emits exactly
the stored keys intersecting `q` (as a multiset).  The source's `insert`
does not test global membership, so the duplicate-freedom premise on the
insertion sequence is necessary — see `query_duplicate_emission`. -/
theorem query_multiset_exact (t : Option QNode) (q : Rect) (h : ReachD t) :
    (allKeysT t).Nodup ∧
    List.Perm (queryT t q)
      ((allKeysT t).filter (fun v => hesIntersect q.toBox v.toBox)) := by
  refine ⟨reachD_nodup h, ?_⟩
  cases t with
  | none => exact List.Perm.refl _
  | some n =>
    have hinv := (reach_stateInv (reachD_reach h) n rfl).2
    rw [List.perm_iff_count]
    intro a
    exact queryNode_count q n hinv a

/-- Witness for C1 at a concrete duplicate-free history. -/
theorem query_multiset_exact_witness :
    (allKeysT treeAB).Nodup ∧
    List.Perm (queryT treeAB keyB)
      ((allKeysT treeAB).filter (fun v => hesIntersect keyB.toBox v.toBox)) :=
  query_multiset_exact treeAB keyB
    (ReachD.ins (insertT none keyA) keyB
      (ReachD.ins none keyA ReachD.start (by decide) (by decide))
      (by decide) (by decide))

/-- Counterexample to C1 as stated: after the insertion sequence
A, B, C, B the key B is stored twice and `query` emits it twice. -/
theorem query_duplicate_emission :
    (queryT treeABCB keyB).count keyB = 2 ∧
    (allKeysT treeABCB).count keyB = 2 := by decide

/-! ### C2: where keys are placed -/

/-- A node is well-placed when each of its values either straddles its split
lines or sits in a unit-sized node, recursively in every child. -/
def wellPlaced : QNode → Bool
  | .mk reg lt lb rt rb vals =>
    vals.all (fun k => hasIntersectionWithRegionSplitLines k reg || reg.size == 1)
    && (match lt with | none => true | some c => wellPlaced c)
    && (match lb with | none => true | some c => wellPlaced c)
    && (match rt with | none => true | some c => wellPlaced c)
    && (match rb with | none => true | some c => wellPlaced c)

def optWellPlaced : Option QNode → Bool
  | none => true
  | some n => wellPlaced n

theorem wellPlaced_node (reg : Square) (lt lb rt rb : Option QNode)
    (vals : List Rect) :
    wellPlaced (.mk reg lt lb rt rb vals) =
      (vals.all (fun k =>
          hasIntersectionWithRegionSplitLines k reg || reg.size == 1)
        && optWellPlaced lt && optWellPlaced lb
        && optWellPlaced rt && optWellPlaced rb) := by
  cases lt <;> cases lb <;> cases rt <;> cases rb <;> rfl

theorem nodeInv_wellPlaced (n : QNode) (h : NodeInv n) : wellPlaced n = true := by
  induction n using qnode_strong_ind with
  | _ n ih =>
    obtain ⟨reg, lt, lb, rt, rb, vals⟩ := n
    rw [wellPlaced_node]
    simp only [Bool.and_eq_true, List.all_eq_true]
    refine ⟨⟨⟨⟨?_, ?_⟩, ?_⟩, ?_⟩, ?_⟩
    · intro k hk
      rcases h.vals_straddle k hk with hs | hu
      · have hs' : hasIntersectionWithRegionSplitLines k reg = true := hs
        rw [hs', Bool.true_or]
      · have hu' : reg.size = 1 := hu
        rw [hu']
        simp
    · cases hc : lt with
      | none => rfl
      | some c =>
        have hgc : getChild (QNode.mk reg lt lb rt rb vals) ZOrderPos.LeftTop
            = some c := by rw [show getChild (QNode.mk reg lt lb rt rb vals)
              ZOrderPos.LeftTop = lt from rfl, hc]
        exact ih ZOrderPos.LeftTop c hgc (h.child hgc).2
    · cases hc : lb with
      | none => rfl
      | some c =>
        have hgc : getChild (QNode.mk reg lt lb rt rb vals) ZOrderPos.LeftBottom
            = some c := by rw [show getChild (QNode.mk reg lt lb rt rb vals)
              ZOrderPos.LeftBottom = lb from rfl, hc]
        exact ih ZOrderPos.LeftBottom c hgc (h.child hgc).2
    · cases hc : rt with
      | none => rfl
      | some c =>
        have hgc : getChild (QNode.mk reg lt lb rt rb vals) ZOrderPos.RightTop
            = some c := by rw [show getChild (QNode.mk reg lt lb rt rb vals)
              ZOrderPos.RightTop = rt from rfl, hc]
        exact ih ZOrderPos.RightTop c hgc (h.child hgc).2
    · cases hc : rb with
      | none => rfl
      | some c =>
        have hgc : getChild (QNode.mk reg lt lb rt rb vals) ZOrderPos.RightBottom
            = some c := by rw [show getChild (QNode.mk reg lt lb rt rb vals)
              ZOrderPos.RightBottom = rb from rfl, hc]
        exact ih ZOrderPos.RightBottom c hgc (h.child hgc).2

/-- Claim C2 (amended): after any sequence of inserts of in-contract keys
and removes, every stored key straddles the split lines of the node
holding it or that node is unit-sized.  The stronger "shallowest node"
phrasing fails: after a grow-up a key can straddle the root's split lines
yet be stored strictly below it — see `stored_key_below_straddling_root`. -/
theorem stored_keys_wellPlaced (t : Option QNode) (h : Reach t) :
    optWellPlaced t = true := by
  cases t with
  | none => rfl
  | some n => exact nodeInv_wellPlaced n (reach_stateInv h n rfl).2

/-- Witness for C2 at a concrete reachable tree. -/
theorem stored_keys_wellPlaced_witness : optWellPlaced treeAB = true :=
  stored_keys_wellPlaced treeAB
    (Reach.ins (insertT none keyA) keyB
      (Reach.ins none keyA Reach.start (by decide)) (by decide))

/-- Counterexample to C2 as stated: in the tree built from A, B, C the
root's split lines pass through B (so the root is the shallowest such
node), yet B is not stored at the root — it sits in a deeper node. -/
theorem stored_key_below_straddling_root :
    treeABC.map (fun n => hasIntersectionWithRegionSplitLines keyB n.region)
      = some true ∧
    treeABC.map (fun n => decide (keyB ∈ n.values)) = some false ∧
    keyB ∈ allKeysT treeABC := by decide

/-! ### C3: grow-up -/

/-- Claim C3 (confirmed): when the key is not contained in the current
root's region, `growUpIfNeeds` replaces the root by a node of size
`size * 2^m` (for some positive `m`) anchored at (0,0), reachable back to
the old root through a chain of `m` LeftBottom children; `m` is minimal
(no smaller doubling already contains the key), the result contains the
key, and the stored keys are preserved exactly. -/
theorem growUp_doubles_until_contains (root : QNode) (k : Rect)
    (hr : Reach (some root)) (hk : InContract k)
    (hnc : containsBox root.region.toBox k.toBox = false) :
    ∃ m : Nat, 0 < m ∧
      (growUpIfNeeds root k).region = ⟨⟨0, 0⟩, root.region.size * 2 ^ m⟩ ∧
      containsBox (growUpIfNeeds root k).region.toBox k.toBox = true ∧
      (∀ i : Nat, i < m →
        containsBox (Square.mk ⟨0, 0⟩ (root.region.size * 2 ^ i)).toBox
          k.toBox = false) ∧
      lbChain m (growUpIfNeeds root k) = some root ∧
      subtreeKeys (growUpIfNeeds root k) = subtreeKeys root := by
  obtain ⟨hpos, hinv⟩ := reach_stateInv hr root rfl
  obtain ⟨j, hj⟩ := hinv.size_pow
  obtain ⟨m, _, hm2, hm3, hm4⟩ :=
    growUpGo_steps k ((maxExtent k).toNat + 2) root hpos
  have hbound : maxExtent k ≤ root.region.size * 2 ^ ((maxExtent k).toNat + 2) := by
    have h1 : maxExtent k ≤ 2 ^ ((maxExtent k).toNat + 2) := int_le_two_pow_plus _
    have h2 : (1 : Int) ≤ root.region.size := by
      rw [hj]
      exact (two_pow_pos j)
    have h3 : (0 : Int) ≤ 2 ^ ((maxExtent k).toNat + 2) := (two_pow_pos _).le
    calc maxExtent k ≤ 2 ^ ((maxExtent k).toNat + 2) := h1
      _ = 1 * 2 ^ ((maxExtent k).toNat + 2) := by ring
      _ ≤ root.region.size * 2 ^ ((maxExtent k).toNat + 2) :=
          mul_le_mul_of_nonneg_right h2 h3
  have hcont : containsBox (growUpIfNeeds root k).region.toBox k.toBox = true :=
    growUpGo_contains k hk ((maxExtent k).toNat + 2) root j hpos hj hbound
  have hm0 : 0 < m := by
    rcases Nat.eq_zero_or_pos m with h0 | h
    · exfalso
      subst h0
      have hreg : (growUpIfNeeds root k).region = root.region := by
        show (growUpGo k ((maxExtent k).toNat + 2) root).region = root.region
        rw [hm2, pow_zero, mul_one, ← hpos]
      rw [hreg, hnc] at hcont
      exact Bool.false_ne_true hcont
    · exact h
  exact ⟨m, hm0, hm2, hcont, hm3, hm4, growUpGo_keys k _ root⟩

def rootA : QNode :=
  QNode.mk ⟨⟨0, 0⟩, 4⟩ none none
    (some (QNode.mk ⟨⟨2, 2⟩, 2⟩ none none none none [⟨⟨3, 3⟩, 0, 0⟩])) none []

/-- Witness for C3: grow-up triggered by keyC on the root built by
inserting keyA into an empty tree. -/
theorem growUp_doubles_until_contains_witness :
    ∃ m : Nat, 0 < m ∧
      (growUpIfNeeds rootA keyC).region = ⟨⟨0, 0⟩, rootA.region.size * 2 ^ m⟩ ∧
      containsBox (growUpIfNeeds rootA keyC).region.toBox keyC.toBox = true ∧
      (∀ i : Nat, i < m →
        containsBox (Square.mk ⟨0, 0⟩ (rootA.region.size * 2 ^ i)).toBox
          keyC.toBox = false) ∧
      lbChain m (growUpIfNeeds rootA keyC) = some rootA ∧
      subtreeKeys (growUpIfNeeds rootA keyC) = subtreeKeys rootA :=
  growUp_doubles_until_contains rootA keyC
    (show Reach (some rootA) from
      (show insertT none keyA = some rootA from rfl) ▸
        Reach.ins none keyA Reach.start (by decide))
    (by decide) (by decide)

/-! ### C4: the bool-returning insert with a size counter -/

/-- Modelled from the spec: the header in `src/` declares `insert` with a
`void` return and no `size()` member, while the spec describes a
`insert(k) → bool` that also maintains `size()`.  This wrapper models that
described variant on top of the source's routing (`insertRet` is the
source's insertion code, returning the `flat_set::insert` success bit):
the counter is incremented exactly when the target node's local set
reports a new element. -/
structure QuadTreeS where
  tree : Option QNode
  sz : Nat
deriving Repr

def insertS (S : QuadTreeS) (k : Rect) : QuadTreeS × Bool :=
  let p := insertRet S.tree k
  (⟨p.1, if p.2 then S.sz + 1 else S.sz⟩, p.2)

def SizeOk (S : QuadTreeS) : Prop := S.sz = (allKeysT S.tree).length

instance (S : QuadTreeS) : Decidable (SizeOk S) := by
  unfold SizeOk
  infer_instance

/-- Claim C4 (amended): the bool result is `true` exactly when a new copy
was added to the target node's local set, in which case the key count and
`size()` go up by one; on `false` nothing changes and the key is already
present *in the target node*.  The spec's reading "false if k was already
present (in the tree)" fails: a key already stored elsewhere in the tree
can be inserted again with result `true` — see `insert_true_on_present_key`. -/
theorem insert_returns_new_copy_added (S : QuadTreeS) (k : Rect)
    (h : SizeOk S) :
    SizeOk (insertS S k).1 ∧
    ((insertS S k).2 = true →
      (allKeysT (insertS S k).1.tree).length = (allKeysT S.tree).length + 1 ∧
      (insertS S k).1.sz = S.sz + 1) ∧
    ((insertS S k).2 = false →
      allKeysT (insertS S k).1.tree = allKeysT S.tree ∧
      (insertS S k).1.sz = S.sz ∧ k ∈ allKeysT S.tree) := by
  have htree : (insertS S k).1.tree = (insertRet S.tree k).1 := rfl
  have hb2 : (insertS S k).2 = (insertRet S.tree k).2 := rfl
  have hsz : (insertS S k).1.sz =
      if (insertRet S.tree k).2 then S.sz + 1 else S.sz := rfl
  cases hb : (insertRet S.tree k).2 with
  | true =>
    obtain ⟨_, hlen⟩ := (insertRet_spec S.tree k).1 hb
    rw [hb] at hsz hb2
    refine ⟨?_, fun _ => ⟨?_, ?_⟩, fun hf => ?_⟩
    · show (insertS S k).1.sz = (allKeysT (insertS S k).1.tree).length
      rw [hsz, if_pos rfl, htree, hlen, h]
    · rw [htree, hlen]
    · rw [hsz, if_pos rfl]
    · rw [hb2] at hf
      exact Bool.noConfusion hf
  | false =>
    obtain ⟨hsame, hmem⟩ := (insertRet_spec S.tree k).2 hb
    rw [hb] at hsz hb2
    refine ⟨?_, fun ht => ?_, fun _ => ⟨?_, ?_, hmem⟩⟩
    · show (insertS S k).1.sz = (allKeysT (insertS S k).1.tree).length
      rw [hsz, if_neg Bool.false_ne_true, htree, hsame, h]
    · rw [hb2] at ht
      exact Bool.noConfusion ht
    · rw [htree, hsame]
    · rw [hsz, if_neg Bool.false_ne_true]

/-- Witness for C4 at a concrete state satisfying the size invariant. -/
theorem insert_returns_new_copy_added_witness :
    SizeOk (insertS ⟨treeAB, 2⟩ keyC).1 ∧
    ((insertS ⟨treeAB, 2⟩ keyC).2 = true →
      (allKeysT (insertS ⟨treeAB, 2⟩ keyC).1.tree).length
        = (allKeysT treeAB).length + 1 ∧
      (insertS ⟨treeAB, 2⟩ keyC).1.sz = 2 + 1) ∧
    ((insertS ⟨treeAB, 2⟩ keyC).2 = false →
      allKeysT (insertS ⟨treeAB, 2⟩ keyC).1.tree = allKeysT treeAB ∧
      (insertS ⟨treeAB, 2⟩ keyC).1.sz = 2 ∧ keyC ∈ allKeysT treeAB) :=
  insert_returns_new_copy_added ⟨treeAB, 2⟩ keyC (by decide)

/-- Counterexample to C4 as stated: re-inserting keyB, which is already
stored in the tree, still returns `true` (and adds a second copy). -/
theorem insert_true_on_present_key :
    (insertRet treeABC keyB).2 = true ∧ keyB ∈ allKeysT treeABC := by decide
